import Mathlib

/-!
# Verification of the HEX-data-processor core against its specification

Shallow embedding of the Python sources under `src/HEX-data-processor/src/`
(`cleaner.py`, `transformer.py`, `http_client.py`, `scraper.py`,
`scheduler.py`, `storage/csv_storage.py`, `storage/jsonl_storage.py`),
together with theorems settling the specification's claims.

Modelling conventions:
* A Python scalar/array/object value is a `Value`; Python `float` objects are
  modelled by exact rationals (`ℚ`), so binary IEEE rounding is abstracted to
  exact decimal arithmetic.
* A Python `dict` item is an insertion-ordered association list
  (`Item := List (String × Value)`); real Python dicts have pairwise distinct
  keys, which is carried as a `Nodup` hypothesis where a proof needs it.
  `dictGet` reads the first binding, `dictSet` overwrites the first binding in
  place (keeping its position) or appends a new one at the end — exactly the
  observable behaviour of `d[k]` read/assignment on a Python dict.
-/

/-- A Python value as it occurs in the processor's items: `None`, `str`,
`int`, `float` (modelled as an exact rational), `bool`, `list`, `dict`,
or a `datetime.datetime` (as produced by the transformer's datetime
coercion; naive, microseconds unmodelled). -/
inductive Value : Type where
  | null : Value
  | str (s : String) : Value
  | int (n : ℤ) : Value
  | float (q : ℚ) : Value
  | bool (b : Bool) : Value
  | list (xs : List Value) : Value
  | dict (fields : List (String × Value)) : Value
  | dtime (y mo d h mi s : ℕ) : Value

mutual

/-- Structural equality test on values (Python `==` on these shapes). -/
def Value.beq : Value → Value → Bool
  | .null, .null => true
  | .str a, .str b => a == b
  | .int a, .int b => a == b
  | .float a, .float b => a == b
  | .bool a, .bool b => a == b
  | .list a, .list b => Value.beqList a b
  | .dict a, .dict b => Value.beqPairs a b
  | .dtime y1 mo1 d1 h1 mi1 s1, .dtime y2 mo2 d2 h2 mi2 s2 =>
    y1 == y2 && mo1 == mo2 && d1 == d2 && h1 == h2 && mi1 == mi2 && s1 == s2
  | _, _ => false

/-- Elementwise equality of value lists. -/
def Value.beqList : List Value → List Value → Bool
  | [], [] => true
  | a :: as, b :: bs => Value.beq a b && Value.beqList as bs
  | _, _ => false

/-- Elementwise equality of key/value pair lists. -/
def Value.beqPairs : List (String × Value) → List (String × Value) → Bool
  | [], [] => true
  | (k, a) :: as, (l, b) :: bs => k == l && Value.beq a b && Value.beqPairs as bs
  | _, _ => false

end

mutual

theorem Value.beq_sound : ∀ a b : Value, Value.beq a b = true → a = b
  | .null, .null, _ => rfl
  | .str a, .str b, h => by simpa [Value.beq] using h
  | .int a, .int b, h => by simpa [Value.beq] using h
  | .float a, .float b, h => by simpa [Value.beq] using h
  | .bool a, .bool b, h => by simpa [Value.beq] using h
  | .list a, .list b, h => by
    rw [Value.beqList_sound a b (by simpa [Value.beq] using h)]
  | .dict a, .dict b, h => by
    rw [Value.beqPairs_sound a b (by simpa [Value.beq] using h)]
  | .dtime y1 mo1 d1 h1 mi1 s1, .dtime y2 mo2 d2 h2 mi2 s2, h => by
    simp only [Value.beq, Bool.and_eq_true, beq_iff_eq] at h
    obtain ⟨⟨⟨⟨⟨rfl, rfl⟩, rfl⟩, rfl⟩, rfl⟩, rfl⟩ := h
    rfl

theorem Value.beqList_sound : ∀ as bs : List Value, Value.beqList as bs = true → as = bs
  | [], [], _ => rfl
  | a :: as, b :: bs, h => by
    simp only [Value.beqList, Bool.and_eq_true] at h
    rw [Value.beq_sound a b h.1, Value.beqList_sound as bs h.2]

theorem Value.beqPairs_sound :
    ∀ as bs : List (String × Value), Value.beqPairs as bs = true → as = bs
  | [], [], _ => rfl
  | (k, a) :: as, (l, b) :: bs, h => by
    simp only [Value.beqPairs, Bool.and_eq_true, beq_iff_eq] at h
    rw [h.1.1, Value.beq_sound a b h.1.2, Value.beqPairs_sound as bs h.2]

end

mutual

theorem Value.beq_refl : ∀ a : Value, Value.beq a a = true
  | .null => rfl
  | .str a => by simp [Value.beq]
  | .int a => by simp [Value.beq]
  | .float a => by simp [Value.beq]
  | .bool a => by simp [Value.beq]
  | .list a => by simpa [Value.beq] using Value.beqList_refl a
  | .dict a => by simpa [Value.beq] using Value.beqPairs_refl a
  | .dtime y mo d h mi s => by simp [Value.beq]

theorem Value.beqList_refl : ∀ as : List Value, Value.beqList as as = true
  | [] => rfl
  | a :: as => by
    simp only [Value.beqList, Bool.and_eq_true]
    exact ⟨Value.beq_refl a, Value.beqList_refl as⟩

theorem Value.beqPairs_refl : ∀ as : List (String × Value), Value.beqPairs as as = true
  | [] => rfl
  | (k, a) :: as => by
    simp [Value.beqPairs, Value.beq_refl a, Value.beqPairs_refl as]

end

instance : DecidableEq Value := fun a b =>
  decidable_of_iff (Value.beq a b = true)
    ⟨Value.beq_sound a b, fun h => h ▸ Value.beq_refl a⟩

/-- A data item: an insertion-ordered Python dict from field names to values. -/
abbrev Item : Type := List (String × Value)

/-- `d.get(k)` distinguishing absence (`none`) from a stored value:
the first binding of `k` wins (Python dicts never hold duplicate keys). -/
def dictGet (it : Item) (k : String) : Option Value :=
  match it with
  | [] => none
  | (k', v) :: rest => if k' = k then some v else dictGet rest k

/-- Python's `item.get(k)`: returns `None` when the key is absent, so an
absent field and an explicit `None` value are indistinguishable. -/
def pyGet (it : Item) (k : String) : Value :=
  (dictGet it k).getD Value.null

/-- Python dict assignment `d[k] = v`: overwrite the existing binding in place
(keeping its position) or append a fresh binding at the end. -/
def dictSet (it : Item) (k : String) (v : Value) : Item :=
  match it with
  | [] => [(k, v)]
  | (k', v') :: rest =>
    if k' = k then (k', v) :: rest else (k', v') :: dictSet rest k v

/-- Keys of an item, in insertion order. -/
def dictKeys (it : Item) : List String := it.map Prod.fst

/-- Python `k in d`. -/
def dictHas (it : Item) (k : String) : Bool := (dictGet it k).isSome

theorem dictGet_set_self (it : Item) (k : String) (v : Value) :
    dictGet (dictSet it k v) k = some v := by
  induction it with
  | nil => simp [dictSet, dictGet]
  | cons p rest ih =>
    obtain ⟨k', v'⟩ := p
    by_cases h : k' = k <;> simp [dictSet, dictGet, h, ih]

theorem dictGet_set_ne (it : Item) (k k' : String) (v : Value) (h : k ≠ k') :
    dictGet (dictSet it k v) k' = dictGet it k' := by
  induction it with
  | nil => simp [dictSet, dictGet, h]
  | cons p rest ih =>
    obtain ⟨k₀, v₀⟩ := p
    by_cases h₀ : k₀ = k
    · subst h₀
      simp [dictSet, dictGet, h]
    · simp only [dictSet, if_neg h₀]
      by_cases h₁ : k₀ = k' <;> simp [dictGet, h₁, ih]

/-- Writing back the value already stored at `k` is a no-op. -/
theorem dictSet_get_self (it : Item) (k : String) (v : Value)
    (h : dictGet it k = some v) : dictSet it k v = it := by
  induction it with
  | nil => simp [dictGet] at h
  | cons p rest ih =>
    obtain ⟨k', v'⟩ := p
    by_cases hk : k' = k
    · subst hk
      simp only [dictGet, if_true, eq_self_iff_true, Option.some.injEq] at h
      simp [dictSet, h]
    · simp only [dictGet, if_neg hk] at h
      simp [dictSet, hk, ih h]

/-! ## Cleaner (`src/cleaner.py`) -/

/-- ASCII whitespace stripped by Python's `str.strip()`
(space, `\t`, `\n`, `\r`, `\x0b`, `\x0c`; unicode spaces are not modelled). -/
def isPySpace (c : Char) : Bool :=
  c == ' ' || c == '\t' || c == '\n' || c == '\r' || c == '\x0b' || c == '\x0c'

/-- Python `str.strip()` on a character list. -/
def pyStripChars (l : List Char) : List Char :=
  ((l.dropWhile isPySpace).reverse.dropWhile isPySpace).reverse

/-- Python `s.strip()`. -/
def pyStrip (s : String) : String := ⟨pyStripChars s.data⟩

/-- Denotation of `while '  ' in cleaned: cleaned = cleaned.replace('  ', ' ')`
from `DataCleaner._clean_string`: the loop halves every run of spaces until no
double space remains, so its fixpoint maps every maximal run of spaces to a
single space; `collapseSpacesAux` computes that fixpoint directly
(`prevSpace` records whether the previously emitted character was a space). -/
def collapseSpacesAux (prevSpace : Bool) : List Char → List Char
  | [] => []
  | c :: rest =>
    if c = ' ' then
      if prevSpace then collapseSpacesAux true rest
      else ' ' :: collapseSpacesAux true rest
    else c :: collapseSpacesAux false rest

/-- Keep characters with codepoint ≥ 32 plus newline and tab
(`ord(char) >= 32 or char in '\n\t'`). -/
def keepChar (c : Char) : Bool := 32 ≤ c.toNat || c == '\n' || c == '\t'

/-- `DataCleaner._clean_string` on an actual `str` argument:
strip, collapse internal double spaces, drop control characters
other than newline/tab. -/
def cleanString (s : String) : String :=
  ⟨(collapseSpacesAux false (pyStripChars s.data)).filter keepChar⟩

/-- Value-level normalization done by `DataCleaner._clean_item`:
strings are cleaned, strings inside list values are cleaned,
everything else passes through. -/
def cleanValue (v : Value) : Value :=
  match v with
  | .str s => .str (cleanString s)
  | .list xs =>
    .list (xs.map (fun x => match x with | .str s => .str (cleanString s) | x => x))
  | v => v

/-- `DataCleaner._clean_item`: rebuild the item with each value normalized
(insertion order preserved; an empty item stays empty). -/
def cleanItem (it : Item) : Item := it.map (fun p => (p.1, cleanValue p.2))

/-- One field validation rule (`FieldValidation` in `config.py`). -/
structure FieldValidation where
  required : Bool := false
  type : String := "string"
  deriving DecidableEq

/-- The three missing-value strategies admitted by `HandleMissingConfig`'s
`pattern="^(default|drop|interpolate)$"`. -/
inductive MissingStrategy : Type where
  | drop | default | interpolate
  deriving DecidableEq

/-- `HandleMissingConfig` from `config.py`. -/
structure HandleMissingConfig where
  strategy : MissingStrategy
  defaultValues : List (String × Value) := []

/-- `CleanerConfig` from `config.py` (`remove_duplicates`, `duplicate_keys`,
`handle_missing`, `field_validation`). -/
structure CleanerConfig where
  removeDups : Bool := false
  duplicateKeys : List String := []
  handleMissing : Option HandleMissingConfig := none
  fieldValidation : List (String × FieldValidation) := []

/-- `item.get(field) is None or item.get(field) == ""`: a field counts as
missing when absent, `None`, or the empty string. -/
def missingAt (it : Item) (f : String) : Bool :=
  pyGet it f == Value.null || pyGet it f == Value.str ""

/-- The required field names, as computed at the top of
`_drop_missing_values` from `self.config.field_validation`. -/
def requiredFieldsOf (fv : List (String × FieldValidation)) : List String :=
  (fv.filter (fun p => p.2.required)).map Prod.fst

/-- `DataCleaner._drop_missing_values`. -/
def dropMissingValues (requiredFields : List String) (items : List Item) :
    List Item :=
  if requiredFields.isEmpty then items
  else items.filter (fun it => !(requiredFields.any (fun f => missingAt it f)))

/-- One step of `_fill_missing_values`' inner loop: fill field `f` with
default `d` when it is present-but-missing, or absent. -/
def fillField (it : Item) (f : String) (d : Value) : Item :=
  match dictGet it f with
  | some v => if v = Value.null ∨ v = Value.str "" then dictSet it f d else it
  | none => dictSet it f d

/-- `_fill_missing_values` on one item (`filled_item`), folding the
default-value map in declaration order. -/
def fillItem (defaults : List (String × Value)) (it : Item) : Item :=
  defaults.foldl (fun acc p => fillField acc p.1 p.2) it

/-- `DataCleaner._fill_missing_values`. -/
def fillMissingValues (defaults : List (String × Value)) (items : List Item) :
    List Item :=
  items.map (fillItem defaults)

/-- `DataCleaner._interpolate_missing_values` currently just delegates to
default filling. -/
def interpolateMissingValues (defaults : List (String × Value))
    (items : List Item) : List Item :=
  fillMissingValues defaults items

/-- `DataCleaner._handle_missing_values` dispatch. -/
def handleMissingValues (hm : HandleMissingConfig)
    (requiredFields : List String) (items : List Item) : List Item :=
  match hm.strategy with
  | .drop => dropMissingValues requiredFields items
  | .default => fillMissingValues hm.defaultValues items
  | .interpolate => interpolateMissingValues hm.defaultValues items

/-- First-occurrence key dedup: the key set of the Python dict `hash_input`
built by `for key in duplicate_keys: hash_input[key] = item.get(key)`
(insertion order, repeated keys collapsed). -/
def dedupKeys (ks : List String) : List String :=
  ks.foldl (fun acc k => if k ∈ acc then acc else acc ++ [k]) []

/-- Lexicographic code-point comparison on character lists — Python's
string ordering, written to be evaluable inside the kernel. -/
def charsLe : List Char → List Char → Bool
  | [], _ => true
  | _ :: _, [] => false
  | a :: as, b :: bs =>
    if a = b then charsLe as bs else decide (a.toNat < b.toNat)

/-- Python `<=` on strings. -/
def strLe (a b : String) : Bool := charsLe a.data b.data

/-- The dedup hash of an item:
`str(sorted(hash_input.items()))` fed to md5 in `_remove_duplicates`,
modelled by the sorted `(field, value)` pair list itself —
`str`/`repr` is injective on these pairs and md5 collisions are abstracted
away, so two items share an md5 hash exactly when they share this list.
`sorted` compares `(key, value)` tuples, and the dict keys are pairwise
distinct, so it orders purely by key. -/
def projKey (ks : List String) (it : Item) : List (String × Value) :=
  List.insertionSort (fun a b => strLe a.1 b.1 = true)
    ((dedupKeys ks).map (fun k => (k, pyGet it k)))

/-- The loop of `_remove_duplicates`: `seen` is the set of hashes already
seen (`seen_hashes`), items hashing into it are dropped. -/
def rdGo (ks : List String) (seen : List (List (String × Value))) :
    List Item → List Item
  | [] => []
  | it :: rest =>
    let h := projKey ks it
    if h ∈ seen then rdGo ks seen rest
    else it :: rdGo ks (h :: seen) rest

/-- `DataCleaner._remove_duplicates`. -/
def removeDuplicates (ks : List String) (items : List Item) : List Item :=
  rdGo ks [] items

/-- `DataCleaner._validate_fields`. `ItemValidator.create_from_config`
builds a `fields` dict but returns the plain `ItemValidator` class unchanged,
i.e. a pydantic model with **no declared fields**; constructing it from an
item therefore ignores (pydantic default: extra fields are ignored) every
field and always succeeds, and `validated_item.dict()` is the empty dict.
So every item is replaced by `{}`. -/
def validateFields (items : List Item) : List Item :=
  items.map (fun _ => ([] : Item))

/-- `DataCleaner.clean_data`: missing-value handling, then deduplication,
then validation, then the final
`[self._clean_item(item) for item in cleaned_items if item]`
(which drops falsy — empty — items). -/
def cleanData (cfg : CleanerConfig) (items : List Item) : List Item :=
  let s1 :=
    match cfg.handleMissing with
    | some hm => handleMissingValues hm (requiredFieldsOf cfg.fieldValidation) items
    | none => items
  let s2 :=
    if cfg.removeDups && !cfg.duplicateKeys.isEmpty
    then removeDuplicates cfg.duplicateKeys s1 else s1
  let s3 := if !cfg.fieldValidation.isEmpty then validateFields s2 else s2
  (s3.filter (fun it => !it.isEmpty)).map cleanItem

/-! Spec-side characterization of deduplication, written from the
specification's words: "keep the first occurrence (in input order) of each
equivalence class, where two items are equivalent iff they agree on every
key in duplicate_keys". -/

/-- Two items agree on every configured key (absent = `None`,
as for Python's `item.get`). -/
def equivOnb (ks : List String) (a b : Item) : Bool :=
  ks.all (fun k => pyGet a k == pyGet b k)

/-- Keep an item iff no previously seen item (`prev`) is equivalent to it. -/
def specKeepFirstAux (ks : List String) (prev : List Item) :
    List Item → List Item
  | [] => []
  | it :: rest =>
    if prev.any (fun p => equivOnb ks p it)
    then specKeepFirstAux ks (prev ++ [it]) rest
    else it :: specKeepFirstAux ks (prev ++ [it]) rest

/-- Spec-side dedup: first occurrence of each equivalence class survives. -/
def specKeepFirst (ks : List String) (items : List Item) : List Item :=
  specKeepFirstAux ks [] items

/-! ### Deduplication: `_remove_duplicates` keeps first occurrences (C1) -/

theorem mem_dedupKeys_foldl (ks : List String) (acc : List String) (k : String) :
    k ∈ ks.foldl (fun acc k => if k ∈ acc then acc else acc ++ [k]) acc ↔
      k ∈ acc ∨ k ∈ ks := by
  induction ks generalizing acc with
  | nil => simp
  | cons k' rest ih =>
    simp only [List.foldl_cons]
    by_cases h : k' ∈ acc
    · rw [if_pos h, ih, List.mem_cons]
      constructor
      · rintro (h1 | h2)
        · exact Or.inl h1
        · exact Or.inr (Or.inr h2)
      · rintro (h1 | rfl | h2)
        · exact Or.inl h1
        · exact Or.inl h
        · exact Or.inr h2
    · rw [if_neg h, ih]
      simp only [List.mem_append, List.mem_singleton, List.mem_cons]
      tauto

theorem mem_dedupKeys {ks : List String} {k : String} :
    k ∈ dedupKeys ks ↔ k ∈ ks := by
  unfold dedupKeys
  rw [mem_dedupKeys_foldl]
  simp

/-- The canonical hash agrees between two items exactly when they agree on
every configured duplicate key — in particular it ignores the insertion
order of those fields inside each item. -/
theorem projKey_eq_iff (ks : List String) (a b : Item) :
    projKey ks a = projKey ks b ↔ ∀ k ∈ ks, pyGet a k = pyGet b k := by
  constructor
  · intro h k hk
    have hk' : k ∈ dedupKeys ks := mem_dedupKeys.mpr hk
    have hmem : (k, pyGet a k) ∈ (dedupKeys ks).map (fun k => (k, pyGet a k)) :=
      List.mem_map_of_mem _ hk'
    have hmem2 : (k, pyGet a k) ∈ projKey ks b := by
      rw [← h]
      exact ((List.perm_insertionSort _ _).mem_iff).mpr hmem
    have hmem3 : (k, pyGet a k) ∈ (dedupKeys ks).map (fun k => (k, pyGet b k)) :=
      ((List.perm_insertionSort _ _).mem_iff).mp hmem2
    obtain ⟨k', _, hk'eq⟩ := List.mem_map.mp hmem3
    obtain ⟨h1, h2⟩ := Prod.mk.injEq .. ▸ hk'eq
    rw [← h2, h1]
  · intro h
    unfold projKey
    congr 1
    apply List.map_congr_left
    intro k hk
    rw [h k (mem_dedupKeys.mp hk)]

theorem equivOnb_eq_true_iff (ks : List String) (a b : Item) :
    equivOnb ks a b = true ↔ ∀ k ∈ ks, pyGet a k = pyGet b k := by
  simp [equivOnb]

theorem rdGo_eq_specKeepFirstAux (ks : List String) :
    ∀ (items : List Item) (seen : List (List (String × Value)))
      (prev : List Item),
      (∀ x : Item, projKey ks x ∈ seen ↔
        ∃ p ∈ prev, projKey ks p = projKey ks x) →
      rdGo ks seen items = specKeepFirstAux ks prev items := by
  intro items
  induction items with
  | nil => intro seen prev _; rfl
  | cons it rest ih =>
    intro seen prev hinv
    have hcond : projKey ks it ∈ seen ↔
        (prev.any (fun p => equivOnb ks p it) = true) := by
      rw [hinv it, List.any_eq_true]
      constructor
      · rintro ⟨p, hp, heq⟩
        exact ⟨p, hp, (equivOnb_eq_true_iff ks p it).mpr
          ((projKey_eq_iff ks p it).mp heq)⟩
      · rintro ⟨p, hp, heq⟩
        exact ⟨p, hp, (projKey_eq_iff ks p it).mpr
          ((equivOnb_eq_true_iff ks p it).mp heq)⟩
    by_cases hmem : projKey ks it ∈ seen
    · have hB : prev.any (fun p => equivOnb ks p it) = true := hcond.mp hmem
      rw [rdGo, specKeepFirstAux]
      simp only [hmem, if_true, hB]
      apply ih
      intro x
      rw [hinv x]
      constructor
      · rintro ⟨p, hp, h⟩
        exact ⟨p, List.mem_append_left _ hp, h⟩
      · rintro ⟨p, hp, h⟩
        rcases List.mem_append.mp hp with h1 | h1
        · exact ⟨p, h1, h⟩
        · rw [List.mem_singleton.mp h1] at h
          exact (hinv x).mp (h ▸ hmem)
    · have hB : prev.any (fun p => equivOnb ks p it) = false := by
        rw [← Bool.not_eq_true]
        intro hb
        exact hmem (hcond.mpr hb)
      rw [rdGo, specKeepFirstAux]
      simp only [hmem, if_false, hB]
      congr 1
      apply ih
      intro x
      simp only [List.mem_cons, hinv x]
      constructor
      · rintro (h | ⟨p, hp, h⟩)
        · exact ⟨it, List.mem_append_right _ (List.mem_singleton.mpr rfl), h.symm⟩
        · exact ⟨p, List.mem_append_left _ hp, h⟩
      · rintro ⟨p, hp, h⟩
        rcases List.mem_append.mp hp with h1 | h1
        · exact Or.inr ⟨p, h1, h⟩
        · rw [List.mem_singleton.mp h1] at h
          exact Or.inl h.symm

theorem removeDuplicates_eq_specKeepFirst (ks : List String)
    (items : List Item) : removeDuplicates ks items = specKeepFirst ks items := by
  apply rdGo_eq_specKeepFirstAux
  simp

/-- C1: with `remove_duplicates` enabled and a non-empty `duplicate_keys`,
cleaning keeps exactly the first occurrence (in input order) of each class of
items agreeing on every duplicate key; the hash is computed over the sorted
`(field, value)` pairs restricted to those keys, so it is independent of the
fields' insertion order inside an item; and the two items
`{text:"A", author:"X"}` (in either insertion order) clean to exactly one
item under `duplicate_keys = [text, author]`. -/
theorem C1_dedup_keeps_first_occurrence :
    (∀ ks : List String, ks ≠ [] → ∀ items : List Item,
        removeDuplicates ks items = specKeepFirst ks items)
    ∧ (∀ (ks : List String) (a b : Item),
        (∀ k ∈ ks, pyGet a k = pyGet b k) → projKey ks a = projKey ks b)
    ∧ cleanData { removeDups := true, duplicateKeys := ["text", "author"] }
        [[("text", Value.str "A"), ("author", Value.str "X")],
         [("author", Value.str "X"), ("text", Value.str "A")]]
      = [[("text", Value.str "A"), ("author", Value.str "X")]] := by
  refine ⟨fun ks _ items => removeDuplicates_eq_specKeepFirst ks items,
    fun ks a b h => (projKey_eq_iff ks a b).mpr h, ?_⟩
  simp only [cleanData, removeDuplicates_eq_specKeepFirst]
  decide

/-- Witness for C1 at concrete inputs: a duplicate triple under key `id`,
and the hash's insertion-order independence on a two-field item. -/
theorem C1_dedup_keeps_first_occurrence_witness :
    removeDuplicates ["id"]
        [[("id", Value.int 1)], [("id", Value.int 1)], [("id", Value.int 2)]]
      = specKeepFirst ["id"]
        [[("id", Value.int 1)], [("id", Value.int 1)], [("id", Value.int 2)]]
    ∧ projKey ["a", "b"] [("a", Value.int 1), ("b", Value.int 2)]
      = projKey ["a", "b"] [("b", Value.int 2), ("a", Value.int 1)] :=
  ⟨C1_dedup_keeps_first_occurrence.1 ["id"] (by decide) _,
   C1_dedup_keeps_first_occurrence.2.1 ["a", "b"]
     [("a", Value.int 1), ("b", Value.int 2)]
     [("b", Value.int 2), ("a", Value.int 1)] (by decide)⟩

/-! ### Missing-value strategies: `drop` (C8) and `default` (C9) -/

/-- C8 (code-bug evidence): under the `drop` strategy an item carrying every
declared required field non-empty passes `_drop_missing_values` untouched,
yet `clean_data` still returns the empty list, because with
`field_validation` configured the validation stage maps every item to the
empty dict (the dynamically "created" validator has no fields) and the final
comprehension drops empty dicts. -/
theorem C8_drop_strategy_eval :
    dropMissingValues
        (requiredFieldsOf
          [("text", { required := true, type := "string" }),
           ("author", { required := true, type := "string" })])
        [[("text", Value.str "Valid"), ("author", Value.str "A")]]
      = [[("text", Value.str "Valid"), ("author", Value.str "A")]]
    ∧ cleanData
        { handleMissing := some { strategy := .drop },
          fieldValidation :=
            [("text", { required := true, type := "string" }),
             ("author", { required := true, type := "string" })] }
        [[("text", Value.str "Valid"), ("author", Value.str "A")]]
      = [] := by
  decide

/-- C9 counterexample: with the `default` strategy and default-value map
`{a: ""}`, the empty item cleans to `{a: ""}` — the field listed in the map
is empty in the output, contradicting the claim as stated. -/
theorem C9_counterexample :
    cleanData
        { handleMissing :=
            some { strategy := .default, defaultValues := [("a", Value.str "")] } }
        [[]]
      = [[("a", Value.str "")]]
    ∧ missingAt [("a", Value.str "")] "a" = true := by
  decide

theorem fillField_get_same (it : Item) (f : String) (d : Value) :
    ∃ v, dictGet (fillField it f d) f = some v ∧
      (v = d ∨ (v ≠ Value.null ∧ v ≠ Value.str "")) := by
  cases hg : dictGet it f with
  | none =>
    simp only [fillField, hg]
    exact ⟨d, dictGet_set_self it f d, Or.inl rfl⟩
  | some v =>
    by_cases hm : v = Value.null ∨ v = Value.str ""
    · simp only [fillField, hg, if_pos hm]
      exact ⟨d, dictGet_set_self it f d, Or.inl rfl⟩
    · simp only [fillField, hg, if_neg hm]
      push_neg at hm
      exact ⟨v, rfl, Or.inr hm⟩

theorem fillField_get_ne (it : Item) (f : String) (d : Value) (f' : String)
    (h : f ≠ f') : dictGet (fillField it f d) f' = dictGet it f' := by
  cases hg : dictGet it f with
  | none =>
    simp only [fillField, hg]
    exact dictGet_set_ne it f f' d h
  | some v =>
    by_cases hm : v = Value.null ∨ v = Value.str ""
    · simp only [fillField, hg, if_pos hm]
      exact dictGet_set_ne it f f' d h
    · simp only [fillField, hg, if_neg hm]

theorem fillItem_get_not_mem (defaults : List (String × Value)) (it : Item)
    (f : String) (h : f ∉ defaults.map Prod.fst) :
    dictGet (fillItem defaults it) f = dictGet it f := by
  induction defaults generalizing it with
  | nil => rfl
  | cons q rest ih =>
    simp only [List.map_cons, List.mem_cons] at h
    push_neg at h
    show dictGet (fillItem rest (fillField it q.1 q.2)) f = _
    rw [ih _ h.2, fillField_get_ne it q.1 q.2 f (fun hq => h.1 hq.symm)]

theorem fillItem_get_mem (defaults : List (String × Value)) (it : Item)
    (hnd : (defaults.map Prod.fst).Nodup) (p : String × Value)
    (hp : p ∈ defaults) :
    ∃ v, dictGet (fillItem defaults it) p.1 = some v ∧
      (v = p.2 ∨ (v ≠ Value.null ∧ v ≠ Value.str "")) := by
  induction defaults generalizing it with
  | nil => cases hp
  | cons q rest ih =>
    simp only [List.map_cons, List.nodup_cons] at hnd
    rcases List.mem_cons.mp hp with rfl | hp'
    · show ∃ v, dictGet (fillItem rest (fillField it p.1 p.2)) p.1 = some v ∧ _
      rw [fillItem_get_not_mem rest _ p.1 hnd.1]
      exact fillField_get_same it p.1 p.2
    · exact ih _ hnd.2 hp'

/-- C9 (amended): immediately after the `default` fill stage, every field
listed in the default-value map is present in every item, and holds either a
non-null/non-empty value or the declared default itself (so it is
non-null/non-empty whenever its default is); fields not covered by the map
are left untouched. (The claim as stated fails at the level of the full
cleaned output: a default may itself be empty, and string normalization runs
after filling and can collapse surviving whitespace values to `""`.) -/
theorem C9_default_strategy_fills (defaults : List (String × Value))
    (items : List Item) (hnd : (defaults.map Prod.fst).Nodup) :
    fillMissingValues defaults items = items.map (fillItem defaults)
    ∧ ∀ it : Item,
        (∀ p ∈ defaults, ∃ v, dictGet (fillItem defaults it) p.1 = some v ∧
          (v = p.2 ∨ (v ≠ Value.null ∧ v ≠ Value.str "")))
        ∧ ∀ f, f ∉ defaults.map Prod.fst →
            dictGet (fillItem defaults it) f = dictGet it f :=
  ⟨rfl, fun it =>
    ⟨fun p hp => fillItem_get_mem defaults it hnd p hp,
     fun f hf => fillItem_get_not_mem defaults it f hf⟩⟩

/-- Witness for C9 at a concrete input: a null `author` field is filled with
the default `"Unknown"`, and the uncovered field `x` is untouched. -/
theorem C9_default_strategy_fills_witness :
    (∃ v, dictGet (fillItem [("author", Value.str "Unknown")]
        [("author", Value.null), ("x", Value.int 7)]) "author" = some v ∧
      (v = Value.str "Unknown" ∨ (v ≠ Value.null ∧ v ≠ Value.str "")))
    ∧ dictGet (fillItem [("author", Value.str "Unknown")]
        [("author", Value.null), ("x", Value.int 7)]) "x"
      = dictGet [("author", Value.null), ("x", Value.int 7)] "x" :=
  ⟨((C9_default_strategy_fills [("author", Value.str "Unknown")] []
      (by decide)).2 [("author", Value.null), ("x", Value.int 7)]).1
      ("author", Value.str "Unknown") (by decide),
   ((C9_default_strategy_fills [("author", Value.str "Unknown")] []
      (by decide)).2 [("author", Value.null), ("x", Value.int 7)]).2
      "x" (by decide)⟩

/-! ### Idempotence of `clean_data` (C2) -/

/-- An item whose values are all fixed points of the per-item normalization
(`_clean_item` leaves it unchanged). -/
def itemNormalized (it : Item) : Prop := ∀ p ∈ it, cleanValue p.2 = p.2

instance (it : Item) : Decidable (itemNormalized it) :=
  List.decidableBAll _ it

theorem map_id_of_mem {α : Type _} (l : List α) (f : α → α)
    (h : ∀ x ∈ l, f x = x) : l.map f = l := by
  induction l with
  | nil => rfl
  | cons x rest ih =>
    rw [List.map_cons, h x (List.mem_cons_self x rest),
      ih (fun y hy => h y (List.mem_cons_of_mem x hy))]

theorem cleanItem_eq_self_of_normalized (it : Item) (h : itemNormalized it) :
    cleanItem it = it := by
  unfold cleanItem
  apply map_id_of_mem
  intro p hp
  rw [h p hp]

theorem itemNormalized_dictSet (it : Item) (k : String) (v : Value)
    (h1 : itemNormalized it) (h2 : cleanValue v = v) :
    itemNormalized (dictSet it k v) := by
  induction it with
  | nil =>
    intro p hp
    simp only [dictSet, List.mem_singleton] at hp
    rw [hp]
    exact h2
  | cons q rest ih =>
    obtain ⟨k₀, v₀⟩ := q
    intro p hp
    by_cases hk : k₀ = k
    · simp only [dictSet, if_pos hk] at hp
      rcases List.mem_cons.mp hp with rfl | hp'
      · exact h2
      · exact h1 p (List.mem_cons_of_mem (k₀, v₀) hp')
    · simp only [dictSet, if_neg hk] at hp
      rcases List.mem_cons.mp hp with rfl | hp'
      · exact h1 (k₀, v₀) (List.mem_cons_self (k₀, v₀) rest)
      · exact ih (fun y hy => h1 y (List.mem_cons_of_mem (k₀, v₀) hy)) p hp'

theorem itemNormalized_fillField (it : Item) (f : String) (d : Value)
    (h1 : itemNormalized it) (h2 : cleanValue d = d) :
    itemNormalized (fillField it f d) := by
  cases hg : dictGet it f with
  | none =>
    simp only [fillField, hg]
    exact itemNormalized_dictSet it f d h1 h2
  | some v =>
    by_cases hm : v = Value.null ∨ v = Value.str ""
    · simp only [fillField, hg, if_pos hm]
      exact itemNormalized_dictSet it f d h1 h2
    · simp only [fillField, hg, if_neg hm]
      exact h1

theorem itemNormalized_fillItem (defaults : List (String × Value)) (it : Item)
    (hd : ∀ p ∈ defaults, cleanValue p.2 = p.2) (h : itemNormalized it) :
    itemNormalized (fillItem defaults it) := by
  induction defaults generalizing it with
  | nil => exact h
  | cons q rest ih =>
    rw [show fillItem (q :: rest) it = fillItem rest (fillField it q.1 q.2) from rfl]
    exact ih (fillField it q.1 q.2)
      (fun p hp => hd p (List.mem_cons_of_mem q hp))
      (itemNormalized_fillField it q.1 q.2 h (hd q (List.mem_cons_self q rest)))

/-- A fill step whose field already holds the default or a non-missing
value is a no-op. -/
theorem fillField_id_of (acc : Item) (f : String) (d : Value)
    (h : ∃ v, dictGet acc f = some v ∧
      (v = d ∨ (v ≠ Value.null ∧ v ≠ Value.str ""))) :
    fillField acc f d = acc := by
  obtain ⟨v, hg, hv⟩ := h
  by_cases hm : v = Value.null ∨ v = Value.str ""
  · rcases hv with rfl | hnm
    · simp only [fillField, hg, if_pos hm]
      exact dictSet_get_self acc f v hg
    · rcases hm with rfl | rfl
      · exact absurd rfl hnm.1
      · exact absurd rfl hnm.2
  · simp only [fillField, hg, if_neg hm]

theorem foldl_fillField_id (defaults : List (String × Value)) (Y : Item)
    (h : ∀ p ∈ defaults, fillField Y p.1 p.2 = Y) :
    defaults.foldl (fun acc p => fillField acc p.1 p.2) Y = Y := by
  induction defaults with
  | nil => rfl
  | cons q rest ih =>
    rw [List.foldl_cons, h q (List.mem_cons_self q rest)]
    exact ih (fun p hp => h p (List.mem_cons_of_mem q hp))

/-- Filling missing values is idempotent (for a real default map, i.e. one
with pairwise distinct keys). -/
theorem fillItem_idem (defaults : List (String × Value))
    (hnd : (defaults.map Prod.fst).Nodup) (it : Item) :
    fillItem defaults (fillItem defaults it) = fillItem defaults it := by
  apply foldl_fillField_id
  intro p hp
  exact fillField_id_of _ p.1 p.2 (fillItem_get_mem defaults it hnd p hp)

theorem rdGo_subset (ks : List String) :
    ∀ (l : List Item) (seen : List (List (String × Value))) (x : Item),
      x ∈ rdGo ks seen l → x ∈ l := by
  intro l
  induction l with
  | nil => intro seen x hx; cases hx
  | cons it rest ih =>
    intro seen x hx
    rw [rdGo] at hx
    by_cases hmem : projKey ks it ∈ seen
    · rw [if_pos hmem] at hx
      exact List.mem_cons_of_mem it (ih seen x hx)
    · rw [if_neg hmem] at hx
      rcases List.mem_cons.mp hx with rfl | hx'
      · exact List.mem_cons_self x rest
      · exact List.mem_cons_of_mem it (ih _ x hx')

theorem rdGo_proj_not_mem_seen (ks : List String) :
    ∀ (l : List Item) (seen : List (List (String × Value))) (x : Item),
      x ∈ rdGo ks seen l → projKey ks x ∉ seen := by
  intro l
  induction l with
  | nil => intro seen x hx; cases hx
  | cons it rest ih =>
    intro seen x hx
    rw [rdGo] at hx
    by_cases hmem : projKey ks it ∈ seen
    · rw [if_pos hmem] at hx
      exact ih seen x hx
    · rw [if_neg hmem] at hx
      rcases List.mem_cons.mp hx with rfl | hx'
      · exact hmem
      · intro hc
        exact ih _ x hx' (List.mem_cons_of_mem _ hc)

theorem rdGo_pairwise (ks : List String) :
    ∀ (l : List Item) (seen : List (List (String × Value))),
      List.Pairwise (fun a b => projKey ks a ≠ projKey ks b)
        (rdGo ks seen l) := by
  intro l
  induction l with
  | nil => intro seen; exact List.Pairwise.nil
  | cons it rest ih =>
    intro seen
    rw [rdGo]
    by_cases hmem : projKey ks it ∈ seen
    · rw [if_pos hmem]
      exact ih seen
    · rw [if_neg hmem]
      refine List.pairwise_cons.mpr ⟨?_, ih _⟩
      intro x hx heq
      exact rdGo_proj_not_mem_seen ks rest _ x hx
        (heq ▸ List.mem_cons_self _ _)

/-- On a list whose members already have pairwise distinct dedup hashes,
`_remove_duplicates` is the identity. -/
theorem rdGo_id_of_pairwise (ks : List String) :
    ∀ (l : List Item) (seen : List (List (String × Value))),
      List.Pairwise (fun a b => projKey ks a ≠ projKey ks b) l →
      (∀ x ∈ l, projKey ks x ∉ seen) →
      rdGo ks seen l = l := by
  intro l
  induction l with
  | nil => intro seen _ _; rfl
  | cons it rest ih =>
    intro seen hp hs
    rw [rdGo, if_neg (hs it (List.mem_cons_self it rest))]
    congr 1
    rcases List.pairwise_cons.mp hp with ⟨hhead, htail⟩
    apply ih _ htail
    intro x hx
    rw [List.mem_cons]
    rintro (hc | hc)
    · exact hhead x hx hc.symm
    · exact hs x (List.mem_cons_of_mem it hx) hc

theorem removeDuplicates_id_of_pairwise (ks : List String) (l : List Item)
    (hp : List.Pairwise (fun a b => projKey ks a ≠ projKey ks b) l) :
    removeDuplicates ks l = l :=
  rdGo_id_of_pairwise ks l [] hp (fun x _ => List.not_mem_nil (projKey ks x))

/-- C2 counterexample: with every cleaning feature disabled,
`clean_data` is still not idempotent — removing the control character
`\x01` during normalization creates a double space that only the second
pass collapses. -/
theorem C2_counterexample :
    cleanData {} [[("a", Value.str "x \x01 y")]] = [[("a", Value.str "x  y")]]
    ∧ cleanData {} (cleanData {} [[("a", Value.str "x \x01 y")]])
      = [[("a", Value.str "x y")]]
    ∧ cleanData {} (cleanData {} [[("a", Value.str "x \x01 y")]])
      ≠ cleanData {} [[("a", Value.str "x \x01 y")]] := by
  decide

/-- The missing-value stage of `clean_data` (lines 91-93 of `cleaner.py`). -/
def missingStage (cfg : CleanerConfig) (items : List Item) : List Item :=
  match cfg.handleMissing with
  | some hm => handleMissingValues hm (requiredFieldsOf cfg.fieldValidation) items
  | none => items

/-- The deduplication stage of `clean_data` (lines 96-98). -/
def dedupStage (cfg : CleanerConfig) (l : List Item) : List Item :=
  if cfg.removeDups && !cfg.duplicateKeys.isEmpty
  then removeDuplicates cfg.duplicateKeys l else l

/-- The validation stage of `clean_data` (lines 101-103). -/
def validateStage (cfg : CleanerConfig) (l : List Item) : List Item :=
  if !cfg.fieldValidation.isEmpty then validateFields l else l

/-- The final per-item normalization stage of `clean_data` (line 106). -/
def finalStage (l : List Item) : List Item :=
  (l.filter (fun it => !it.isEmpty)).map cleanItem

theorem cleanData_stages (cfg : CleanerConfig) (items : List Item) :
    cleanData cfg items =
      finalStage (validateStage cfg (dedupStage cfg (missingStage cfg items))) :=
  rfl

theorem dropMissingValues_nil (items : List Item) :
    dropMissingValues [] items = items := by
  simp [dropMissingValues]

theorem dropMissingValues_subset (req : List String) (items : List Item)
    (x : Item) (hx : x ∈ dropMissingValues req items) : x ∈ items := by
  unfold dropMissingValues at hx
  by_cases h : req.isEmpty
  · rwa [if_pos h] at hx
  · rw [if_neg h] at hx
    exact (List.mem_filter.mp hx).1

theorem dedupStage_subset (cfg : CleanerConfig) (l : List Item) (x : Item)
    (hx : x ∈ dedupStage cfg l) : x ∈ l := by
  unfold dedupStage at hx
  by_cases h : (cfg.removeDups && !cfg.duplicateKeys.isEmpty) = true
  · rw [if_pos h] at hx
    exact rdGo_subset _ l [] x hx
  · rwa [if_neg h] at hx

theorem validateStage_of_no_rules (cfg : CleanerConfig) (l : List Item)
    (hval : cfg.fieldValidation = []) : validateStage cfg l = l := by
  simp [validateStage, hval]

theorem finalStage_of_normalized (l : List Item)
    (h : ∀ x ∈ l, itemNormalized x) :
    finalStage l = l.filter (fun it => !it.isEmpty) := by
  unfold finalStage
  apply map_id_of_mem
  intro x hx
  exact cleanItem_eq_self_of_normalized x (h x (List.mem_filter.mp hx).1)

/-- Second-pass deduplication is the identity on the (filtered) output of
first-pass deduplication. -/
theorem dedupStage_filter_id (cfg : CleanerConfig) (l : List Item)
    (p : Item → Bool) :
    dedupStage cfg ((dedupStage cfg l).filter p) = (dedupStage cfg l).filter p := by
  unfold dedupStage
  by_cases h : (cfg.removeDups && !cfg.duplicateKeys.isEmpty) = true
  · rw [if_pos h, if_pos h]
    exact removeDuplicates_id_of_pairwise _ _
      ((rdGo_pairwise cfg.duplicateKeys l []).filter p)
  · rw [if_neg h, if_neg h]

/-- C2 (amended): `clean_data` is idempotent provided no field-validation
rules are configured, every string value in the input items (including
strings inside list values) is already a fixed point of the string
normalizer, and — when a missing-value strategy is configured — the
default-value map has distinct keys and normalized values. (As stated the
claim is false: per-item string normalization runs after deduplication and
missing-value handling, so a second pass can collapse fresh double spaces,
re-fill fields that normalization emptied, and deduplicate items that became
equal only after normalization; see the counterexample.) -/
theorem C2_clean_data_idempotent_amended (cfg : CleanerConfig)
    (items : List Item)
    (hval : cfg.fieldValidation = [])
    (hitems : ∀ it ∈ items, itemNormalized it)
    (hdef : ∀ hm, cfg.handleMissing = some hm →
      (hm.defaultValues.map Prod.fst).Nodup ∧
        ∀ p ∈ hm.defaultValues, cleanValue p.2 = p.2) :
    cleanData cfg (cleanData cfg items) = cleanData cfg items := by
  -- First-pass missing stage output and its members.
  have hZnorm : ∀ x ∈ missingStage cfg items, itemNormalized x := by
    intro x hx
    unfold missingStage at hx
    cases hcm : cfg.handleMissing with
    | none => rw [hcm] at hx; exact hitems x hx
    | some hm =>
      rw [hcm] at hx
      cases hst : hm.strategy with
      | drop =>
        simp only [handleMissingValues, hst] at hx
        exact hitems x (dropMissingValues_subset _ _ x hx)
      | default =>
        simp only [handleMissingValues, hst, fillMissingValues] at hx
        obtain ⟨y, hy, rfl⟩ := List.mem_map.mp hx
        exact itemNormalized_fillItem _ y (hdef hm hcm).2 (hitems y hy)
      | interpolate =>
        simp only [handleMissingValues, hst, interpolateMissingValues,
          fillMissingValues] at hx
        obtain ⟨y, hy, rfl⟩ := List.mem_map.mp hx
        exact itemNormalized_fillItem _ y (hdef hm hcm).2 (hitems y hy)
  -- The first-pass output in closed form.
  have hout : cleanData cfg items =
      (dedupStage cfg (missingStage cfg items)).filter (fun it => !it.isEmpty) := by
    rw [cleanData_stages, validateStage_of_no_rules cfg _ hval,
      finalStage_of_normalized]
    intro x hx
    exact hZnorm x (dedupStage_subset cfg _ x hx)
  -- Members of the first-pass output.
  have houtmem : ∀ x ∈ cleanData cfg items, x ∈ missingStage cfg items := by
    intro x hx
    rw [hout] at hx
    exact dedupStage_subset cfg _ x (List.mem_filter.mp hx).1
  have houtnorm : ∀ x ∈ cleanData cfg items, itemNormalized x :=
    fun x hx => hZnorm x (houtmem x hx)
  -- Second-pass missing stage is the identity on the first-pass output.
  have hm_id : missingStage cfg (cleanData cfg items) = cleanData cfg items := by
    unfold missingStage
    cases hcm : cfg.handleMissing with
    | none => rfl
    | some hm =>
      cases hst : hm.strategy with
      | drop =>
        simp only [handleMissingValues, hst, hval, requiredFieldsOf,
          List.filter_nil, List.map_nil]
        exact dropMissingValues_nil _
      | default =>
        simp only [handleMissingValues, hst, fillMissingValues]
        apply map_id_of_mem
        intro x hx
        have hxm := houtmem x hx
        unfold missingStage at hxm
        rw [hcm] at hxm
        simp only [handleMissingValues, hst, fillMissingValues] at hxm
        obtain ⟨y, _, rfl⟩ := List.mem_map.mp hxm
        exact fillItem_idem hm.defaultValues (hdef hm hcm).1 y
      | interpolate =>
        simp only [handleMissingValues, hst, interpolateMissingValues,
          fillMissingValues]
        apply map_id_of_mem
        intro x hx
        have hxm := houtmem x hx
        unfold missingStage at hxm
        rw [hcm] at hxm
        simp only [handleMissingValues, hst, interpolateMissingValues,
          fillMissingValues] at hxm
        obtain ⟨y, _, rfl⟩ := List.mem_map.mp hxm
        exact fillItem_idem hm.defaultValues (hdef hm hcm).1 y
  -- Second-pass dedup stage is the identity on the first-pass output.
  have hd_id : dedupStage cfg (cleanData cfg items) = cleanData cfg items := by
    rw [hout]
    exact dedupStage_filter_id cfg _ _
  -- Conclude.
  rw [cleanData_stages cfg (cleanData cfg items), hm_id, hd_id,
    validateStage_of_no_rules cfg _ hval,
    finalStage_of_normalized _ houtnorm, hout, List.filter_filter]
  simp

/-- Witness for C2's amended idempotence at a concrete configuration:
dedup on `text`, `default` filling with `{text: "N/A"}`, normalized inputs. -/
theorem C2_clean_data_idempotent_amended_witness :
    cleanData
        { removeDups := true, duplicateKeys := ["text"],
          handleMissing :=
            some { strategy := .default,
                   defaultValues := [("text", Value.str "N/A")] } }
        (cleanData
          { removeDups := true, duplicateKeys := ["text"],
            handleMissing :=
              some { strategy := .default,
                     defaultValues := [("text", Value.str "N/A")] } }
          [[("text", Value.str "A")], [("text", Value.str "")]])
      = cleanData
          { removeDups := true, duplicateKeys := ["text"],
            handleMissing :=
              some { strategy := .default,
                     defaultValues := [("text", Value.str "N/A")] } }
          [[("text", Value.str "A")], [("text", Value.str "")]] :=
  C2_clean_data_idempotent_amended _ _ rfl (by decide)
    (fun hm h => by cases h; exact ⟨by decide, by decide⟩)

/-! ## Decimal rendering and JSON (shared by `transformer.py` and the
storage adapters; `json.dumps`/`json.loads` modelled faithfully on the
value shapes above, with `NaN`/`Infinity` and unicode surrogate escapes out
of scope) -/

/-- Little-endian base-10 digits with structural fuel (any `fuel ≥ n`
computes the digits; keeping the recursion structural lets the kernel
evaluate it, unlike `Nat.digits`' well-founded recursion —
`natDigitsRev_eq_digits` below identifies the two). -/
def natDigitsRev : ℕ → ℕ → List ℕ
  | 0, _ => []
  | fuel + 1, n => if n = 0 then [] else n % 10 :: natDigitsRev fuel (n / 10)

theorem natDigitsRev_eq_digits : ∀ fuel n : ℕ, n ≤ fuel →
    natDigitsRev fuel n = Nat.digits 10 n := by
  intro fuel
  induction fuel with
  | zero =>
    intro n h
    interval_cases n
    simp [natDigitsRev]
  | succ fuel ih =>
    intro n h
    by_cases hn : n = 0
    · subst hn
      simp [natDigitsRev]
    · show (if n = 0 then [] else n % 10 :: natDigitsRev fuel (n / 10)) = _
      rw [if_neg hn, ih (n / 10) (by omega),
        Nat.digits_def' (by norm_num : 1 < 10) (Nat.pos_of_ne_zero hn)]

/-- Decimal digits of `n`, most significant first. -/
def natToDigitChars (n : ℕ) : List Char :=
  (natDigitsRev n n).reverse.map (fun d => Char.ofNat (48 + d))

theorem natToDigitChars_eq (n : ℕ) :
    natToDigitChars n = (Nat.digits 10 n).reverse.map (fun d => Char.ofNat (48 + d)) := by
  rw [natToDigitChars, natDigitsRev_eq_digits n n le_rfl]

/-- Python/JSON decimal rendering of a natural number. -/
def natRepr (n : ℕ) : String :=
  if n = 0 then "0" else ⟨natToDigitChars n⟩

/-- Python/JSON decimal rendering of an integer. -/
def intRepr : ℤ → String
  | .ofNat n => natRepr n
  | .negSucc n => "-" ++ natRepr (n + 1)

/-- Fractional digits of `n` padded with leading zeros to width `k`. -/
def fracDigits (n k : ℕ) : String :=
  ⟨List.replicate (k - (natDigitsRev n n).length) '0' ++
    (if n = 0 then [] else natToDigitChars n)⟩

/-- Rendering of a Python float (our exact-rational model): the shortest
exact decimal expansion when one exists within 40 places (every float the
program can build has one), `num/den` as a fallback. -/
def floatRepr (q : ℚ) : String :=
  let sign := if q < 0 then "-" else ""
  let a : ℚ := |q|
  match (List.range 40).find? (fun k => (a * (10 : ℚ) ^ k).den = 1) with
  | some k =>
    let m := (a * (10 : ℚ) ^ k).num.toNat
    if k = 0 then sign ++ natRepr m ++ ".0"
    else sign ++ natRepr (m / 10 ^ k) ++ "." ++ fracDigits (m % 10 ^ k) k
  | none => sign ++ natRepr a.num.toNat ++ "/" ++ natRepr a.den

/-- Zero-padded two-digit field of `datetime.isoformat`. -/
def pad2 (n : ℕ) : String := if n < 10 then "0" ++ natRepr n else natRepr n

/-- Zero-padded four-digit year of `datetime.isoformat`. -/
def pad4 (n : ℕ) : String :=
  ⟨List.replicate (4 - (natDigitsRev n n).length) '0'⟩ ++
    (if n = 0 then "" else natRepr n)

/-- `datetime.isoformat()` (microseconds are zero in the model). -/
def isoFormat (y mo d h mi s : ℕ) : String :=
  pad4 y ++ "-" ++ pad2 mo ++ "-" ++ pad2 d ++ "T" ++
    pad2 h ++ ":" ++ pad2 mi ++ ":" ++ pad2 s

/-- Hexadecimal digit as emitted by `json.dumps` (lowercase). -/
def hexDigitChar (n : ℕ) : Char :=
  if n < 10 then Char.ofNat (48 + n) else Char.ofNat (87 + n)

/-- `json.dumps` escaping of one character (with `ensure_ascii=False`):
quote, backslash and control characters are escaped, everything else is
emitted literally. -/
def escapeJsonChar (c : Char) : List Char :=
  if c = '"' then ['\\', '"']
  else if c = '\\' then ['\\', '\\']
  else if c = '\n' then ['\\', 'n']
  else if c = '\t' then ['\\', 't']
  else if c = '\r' then ['\\', 'r']
  else if c = '\x08' then ['\\', 'b']
  else if c = '\x0c' then ['\\', 'f']
  else if c.toNat < 32 then
    ['\\', 'u', '0', '0', hexDigitChar (c.toNat / 16), hexDigitChar (c.toNat % 16)]
  else [c]

/-- A JSON string literal: quote, escaped characters, quote. -/
def escapeJsonString (s : String) : List Char :=
  '"' :: s.data.foldr (fun c acc => escapeJsonChar c ++ acc) ['"']

mutual

/-- `json.dumps` of a value, parameterized by the `separators` pair
(`sepI` between items, `sepK` after an object key); datetimes go through
`JSONLStorageAdapter._json_serializer`, i.e. `isoformat()`. -/
def jsonDumpsVal (sepI sepK : String) : Value → List Char
  | .null => "null".data
  | .bool b => (if b then "true" else "false").data
  | .int n => (intRepr n).data
  | .float q => (floatRepr q).data
  | .str s => escapeJsonString s
  | .dtime y mo d h mi s => escapeJsonString (isoFormat y mo d h mi s)
  | .list xs => '[' :: jsonDumpsElems sepI sepK xs ++ [']']
  | .dict ps => '\x7b' :: jsonDumpsMembers sepI sepK ps ++ ['\x7d']

/-- Array elements joined by `sepI`. -/
def jsonDumpsElems (sepI sepK : String) : List Value → List Char
  | [] => []
  | [x] => jsonDumpsVal sepI sepK x
  | x :: xs => jsonDumpsVal sepI sepK x ++ sepI.data ++ jsonDumpsElems sepI sepK xs

/-- Object members joined by `sepI`, each `key sepK value`. -/
def jsonDumpsMembers (sepI sepK : String) : List (String × Value) → List Char
  | [] => []
  | [(k, v)] => escapeJsonString k ++ sepK.data ++ jsonDumpsVal sepI sepK v
  | (k, v) :: ps =>
    escapeJsonString k ++ sepK.data ++ jsonDumpsVal sepI sepK v ++ sepI.data ++
      jsonDumpsMembers sepI sepK ps

end

/-- JSON whitespace. -/
def isJsonWs (c : Char) : Bool := c = ' ' || c = '\t' || c = '\n' || c = '\r'

/-- Skip JSON whitespace. -/
def skipWs (cs : List Char) : List Char := cs.dropWhile isJsonWs

/-- One hexadecimal digit. -/
def parseHexDigit (c : Char) : Option ℕ :=
  if '0' ≤ c ∧ c ≤ '9' then some (c.toNat - 48)
  else if 'a' ≤ c ∧ c ≤ 'f' then some (c.toNat - 87)
  else if 'A' ≤ c ∧ c ≤ 'F' then some (c.toNat - 55)
  else none

/-- Body of a JSON string literal after the opening quote: the decoded
characters and the input remaining after the closing quote. `json.loads`
is strict: raw control characters and bad escapes are refused. -/
def parseJsonStringBody : List Char → Option (List Char × List Char)
  | [] => none
  | c :: rest =>
    if c = '"' then some ([], rest)
    else if c = '\\' then
      match rest with
      | [] => none
      | e :: rest2 =>
        if e = 'u' then
          match rest2 with
          | h1 :: h2 :: h3 :: h4 :: rest3 => do
            let a ← parseHexDigit h1
            let b ← parseHexDigit h2
            let c3 ← parseHexDigit h3
            let d4 ← parseHexDigit h4
            let n := ((a * 16 + b) * 16 + c3) * 16 + d4
            if Nat.isValidChar n then
              let (s, r) ← parseJsonStringBody rest3
              pure (Char.ofNat n :: s, r)
            else none
          | _ => none
        else do
          let d ←
            if e = '"' then some '"'
            else if e = '\\' then some '\\'
            else if e = '/' then some '/'
            else if e = 'n' then some '\n'
            else if e = 't' then some '\t'
            else if e = 'r' then some '\r'
            else if e = 'b' then some '\x08'
            else if e = 'f' then some '\x0c'
            else none
          let (s, r) ← parseJsonStringBody rest2
          pure (d :: s, r)
    else if c.toNat < 32 then none
    else do
      let (s, r) ← parseJsonStringBody rest
      pure (c :: s, r)

/-- Fold decimal digit characters into a natural number. -/
def digitsToNat (ds : List Char) : ℕ :=
  ds.foldl (fun a c => 10 * a + (c.toNat - 48)) 0

/-- Optional exponent after a JSON number's mantissa; `isFloat` records
whether a fraction was seen (`json.loads` yields `int` exactly when the
literal has neither fraction nor exponent). -/
def jsonExpPart (mant : ℚ) (isFloat : Bool) (r : List Char) :
    Option (Value × List Char) :=
  if r.head? = some 'e' ∨ r.head? = some 'E' then
    let (esgn, r1) : Bool × List Char :=
      if r.tail.head? = some '-' then (false, r.tail.tail)
      else if r.tail.head? = some '+' then (true, r.tail.tail)
      else (true, r.tail)
    let ed := r1.takeWhile Char.isDigit
    let r2 := r1.dropWhile Char.isDigit
    if ed.isEmpty then none
    else
      let p : ℚ := (10 : ℚ) ^ digitsToNat ed
      some (.float (if esgn then mant * p else mant / p), r2)
  else if isFloat then some (.float mant, r)
  else some (.int mant.num, r)

/-- A JSON number: optional minus, integer digits (no redundant leading
zero), optional fraction, optional exponent. -/
def parseJsonNumber (cs : List Char) : Option (Value × List Char) :=
  let (neg, cs1) : Bool × List Char :=
    if cs.head? = some '-' then (true, cs.tail) else (false, cs)
  let ip := cs1.takeWhile Char.isDigit
  let r1 := cs1.dropWhile Char.isDigit
  if ip.isEmpty then none
  else if 1 < ip.length ∧ ip.head? = some '0' then none
  else
    let ipv : ℕ := digitsToNat ip
    if r1.head? = some '.' then
      let rr := r1.tail
      let fd := rr.takeWhile Char.isDigit
      let r2 := rr.dropWhile Char.isDigit
      if fd.isEmpty then none
      else
        let mant : ℚ := (ipv : ℚ) + (digitsToNat fd : ℚ) / (10 : ℚ) ^ fd.length
        jsonExpPart (if neg then -mant else mant) true r2
    else jsonExpPart (if neg then -(ipv : ℚ) else (ipv : ℚ)) false r1

mutual

/-- `json.loads`' recursive-descent value parser (fuelled; the fuel is
structural headroom, `jsonParse` supplies enough for any input). -/
def parseJsonVal : ℕ → List Char → Option (Value × List Char)
  | 0, _ => none
  | fuel + 1, cs =>
    match skipWs cs with
    | [] => none
    | c :: r =>
      if c = 'n' then
        match r with
        | c1 :: c2 :: c3 :: r2 =>
          if c1 = 'u' ∧ c2 = 'l' ∧ c3 = 'l' then some (.null, r2) else none
        | _ => none
      else if c = 't' then
        match r with
        | c1 :: c2 :: c3 :: r2 =>
          if c1 = 'r' ∧ c2 = 'u' ∧ c3 = 'e' then some (.bool true, r2) else none
        | _ => none
      else if c = 'f' then
        match r with
        | c1 :: c2 :: c3 :: c4 :: r2 =>
          if c1 = 'a' ∧ c2 = 'l' ∧ c3 = 's' ∧ c4 = 'e' then
            some (.bool false, r2)
          else none
        | _ => none
      else if c = '"' then
        (parseJsonStringBody r).map (fun p => (.str ⟨p.1⟩, p.2))
      else if c = '[' then
        if (skipWs r).head? = some ']' then some (.list [], (skipWs r).tail)
        else parseJsonElems fuel r []
      else if c = '\x7b' then
        if (skipWs r).head? = some '\x7d' then some (.dict [], (skipWs r).tail)
        else parseJsonMembers fuel r []
      else parseJsonNumber (c :: r)

/-- Array elements after `[` (at least one). -/
def parseJsonElems : ℕ → List Char → List Value → Option (Value × List Char)
  | 0, _, _ => none
  | fuel + 1, cs, acc => do
    let (v, r) ← parseJsonVal fuel cs
    let r1 := skipWs r
    if r1.head? = some ',' then parseJsonElems fuel r1.tail (acc ++ [v])
    else if r1.head? = some ']' then some (.list (acc ++ [v]), r1.tail)
    else none

/-- Object members after an opening brace (at least one); a repeated key
overwrites in place, as in a Python dict. -/
def parseJsonMembers : ℕ → List Char → List (String × Value) →
    Option (Value × List Char)
  | 0, _, _ => none
  | fuel + 1, cs, acc =>
    match skipWs cs with
    | [] => none
    | c :: r =>
      if c = '"' then do
        let (k, r1) ← parseJsonStringBody r
        let r2 := skipWs r1
        if r2.head? = some ':' then do
          let (v, r3) ← parseJsonVal fuel r2.tail
          let r4 := skipWs r3
          if r4.head? = some ',' then
            parseJsonMembers fuel r4.tail (dictSet acc ⟨k⟩ v)
          else if r4.head? = some '\x7d' then
            some (.dict (dictSet acc ⟨k⟩ v), r4.tail)
          else none
        else none
      else none

end

/-- `json.loads`: parse one JSON document, requiring only whitespace after
it. -/
def jsonParse (s : String) : Option Value :=
  match parseJsonVal (s.data.length + 1) s.data with
  | some (v, rest) => if (skipWs rest).isEmpty then some v else none
  | none => none

/-! ## Transformer (`src/transformer.py`) -/

mutual

/-- Python `repr()` on our value shapes (string escaping inside `repr` is
simplified to plain quoting; no theorem depends on it). -/
def pyRepr : Value → String
  | .null => "None"
  | .str s => "'" ++ s ++ "'"
  | .int n => intRepr n
  | .float q => floatRepr q
  | .bool b => if b then "True" else "False"
  | .dtime y mo d h mi s =>
    "datetime.datetime(" ++ natRepr y ++ ", " ++ natRepr mo ++ ", " ++
      natRepr d ++ ", " ++ natRepr h ++ ", " ++ natRepr mi ++ ", " ++
      natRepr s ++ ")"
  | .list xs => "[" ++ pyReprElems xs ++ "]"
  | .dict ps => "\x7b" ++ pyReprMembers ps ++ "\x7d"

/-- `repr` of list elements, `", "`-separated. -/
def pyReprElems : List Value → String
  | [] => ""
  | [x] => pyRepr x
  | x :: xs => pyRepr x ++ ", " ++ pyReprElems xs

/-- `repr` of dict members, `", "`-separated. -/
def pyReprMembers : List (String × Value) → String
  | [] => ""
  | [(k, v)] => "'" ++ k ++ "': " ++ pyRepr v
  | (k, v) :: ps => "'" ++ k ++ "': " ++ pyRepr v ++ ", " ++ pyReprMembers ps

end

/-- Python `str()`: the string itself for strings, `isoformat`-style
rendering comes only via the JSON serializer, `repr` otherwise
(`str(datetime)` uses a space separator). -/
def pyStr : Value → String
  | .str s => s
  | .dtime y mo d h mi s =>
    pad4 y ++ "-" ++ pad2 mo ++ "-" ++ pad2 d ++ " " ++
      pad2 h ++ ":" ++ pad2 mi ++ ":" ++ pad2 s
  | v => pyRepr v

/-- Python `float(str)`: optional sign, integer and/or fractional digits,
optional exponent (whitespace already stripped by the caller; `inf`/`nan`
and underscores are out of scope). `none` models `ValueError`. -/
def parsePyFloatCore (cs : List Char) : Option ℚ :=
  let (sgn, cs0) : ℚ × List Char :=
    match cs with
    | '-' :: r => (-1, r)
    | '+' :: r => (1, r)
    | _ => (1, cs)
  let ip := cs0.takeWhile Char.isDigit
  let r1 := cs0.dropWhile Char.isDigit
  let (fp, r2) : List Char × List Char :=
    match r1 with
    | '.' :: rr => (rr.takeWhile Char.isDigit, rr.dropWhile Char.isDigit)
    | _ => ([], r1)
  if ip.isEmpty ∧ fp.isEmpty then none
  else
    let mant : ℚ := (digitsToNat ip : ℚ) + (digitsToNat fp : ℚ) / (10 : ℚ) ^ fp.length
    match r2 with
    | [] => some (sgn * mant)
    | e :: r3 =>
      if e = 'e' ∨ e = 'E' then
        let (esgn, r4) : Bool × List Char :=
          match r3 with
          | '-' :: rr => (false, rr)
          | '+' :: rr => (true, rr)
          | _ => (true, r3)
        let ed := r4.takeWhile Char.isDigit
        let r5 := r4.dropWhile Char.isDigit
        if ed.isEmpty ∨ ¬r5.isEmpty then none
        else some (sgn * (if esgn then mant * (10 : ℚ) ^ digitsToNat ed
                          else mant / (10 : ℚ) ^ digitsToNat ed))
      else none

/-- `float(s)` strips surrounding whitespace first. -/
def parsePyFloat (s : String) : Option ℚ :=
  parsePyFloatCore (pyStripChars s.data)

/-- Python `int(float)`: truncation toward zero. -/
def ratTrunc (q : ℚ) : ℤ := Int.tdiv q.num q.den

/-- Up to `maxd` leading decimal digits (at least one), greedy, as in
`strptime`'s numeric directives. -/
def parseUpTo (maxd : ℕ) (cs : List Char) : Option (ℕ × List Char) :=
  let ds := (cs.takeWhile Char.isDigit).take maxd
  if ds.isEmpty then none else some (digitsToNat ds, cs.drop ds.length)

/-- One literal character. -/
def parseLit (c : Char) : List Char → Option (List Char)
  | c' :: r => if c' = c then some r else none
  | [] => none

/-- Days in a month (proleptic Gregorian, as `datetime` validates). -/
def daysInMonth (y mo : ℕ) : ℕ :=
  if mo = 2 then
    if (y % 4 = 0 ∧ y % 100 ≠ 0) ∨ y % 400 = 0 then 29 else 28
  else if mo = 4 ∨ mo = 6 ∨ mo = 9 ∨ mo = 11 then 30
  else 31

/-- The `datetime` constructor's range validation. -/
def mkDatetime (y mo d h mi s : ℕ) : Option Value :=
  if 1 ≤ y ∧ y ≤ 9999 ∧ 1 ≤ mo ∧ mo ≤ 12 ∧ 1 ≤ d ∧ d ≤ daysInMonth y mo ∧
      h < 24 ∧ mi < 60 ∧ s < 60
  then some (.dtime y mo d h mi s) else none

/-- `%Y-%m-%d`. -/
def parseDateDashed (cs : List Char) : Option (ℕ × ℕ × ℕ × List Char) := do
  let (y, r1) ← parseUpTo 4 cs
  let r2 ← parseLit '-' r1
  let (mo, r3) ← parseUpTo 2 r2
  let r4 ← parseLit '-' r3
  let (d, r5) ← parseUpTo 2 r4
  pure (y, mo, d, r5)

/-- `%H:%M:%S`. -/
def parseTimeColon (cs : List Char) : Option (ℕ × ℕ × ℕ × List Char) := do
  let (h, r1) ← parseUpTo 2 cs
  let r2 ← parseLit ':' r1
  let (mi, r3) ← parseUpTo 2 r2
  let r4 ← parseLit ':' r3
  let (s, r5) ← parseUpTo 2 r4
  pure (h, mi, s, r5)

/-- `a/b/%Y` with `a`,`b` interpreted as (month, day) or (day, month). -/
def parseSlashDate (monthFirst : Bool) (cs : List Char) : Option Value := do
  let (a, r1) ← parseUpTo 2 cs
  let r2 ← parseLit '/' r1
  let (b, r3) ← parseUpTo 2 r2
  let r4 ← parseLit '/' r3
  let (y, r5) ← parseUpTo 4 r4
  if r5.isEmpty then
    if monthFirst then mkDatetime y a b 0 0 0 else mkDatetime y b a 0 0 0
  else none

/-- The ordered format list tried by `_convert_type`'s datetime branch:
`%Y-%m-%d %H:%M:%S`, `%Y-%m-%dT%H:%M:%S`, `%Y-%m-%d`, `%m/%d/%Y`,
`%d/%m/%Y`; the first success wins. -/
def tryDatetimeFormats (s : String) : Option Value :=
  (do
    let (y, mo, d, r) ← parseDateDashed s.data
    let r1 ← parseLit ' ' r
    let (h, mi, sec, r2) ← parseTimeColon r1
    if r2.isEmpty then mkDatetime y mo d h mi sec else none) <|>
  (do
    let (y, mo, d, r) ← parseDateDashed s.data
    let r1 ← parseLit 'T' r
    let (h, mi, sec, r2) ← parseTimeColon r1
    if r2.isEmpty then mkDatetime y mo d h mi sec else none) <|>
  (do
    let (y, mo, d, r) ← parseDateDashed s.data
    if r.isEmpty then mkDatetime y mo d 0 0 0 else none) <|>
  parseSlashDate true s.data <|>
  parseSlashDate false s.data

/-- Python `str.lower()` (ASCII; characters outside A-Z pass through),
defined over the character list so that proofs can evaluate it. -/
def pyToLower (s : String) : String := ⟨s.data.map Char.toLower⟩

/-- `DataTransformer._convert_type`; `none` models a raised exception
(re-raised as `TransformationError`), which the caller turns into
"keep the original value". -/
def convertType (value : Value) (targetType : String) : Option Value :=
  match value with
  | .null => some .null
  | v =>
    let t := pyToLower targetType
    if t = "string" then some (.str (pyStr v))
    else if t = "int" then
      match v with
      | .str s => (parsePyFloat s).map (fun q => .int (ratTrunc q))
      | .int n => some (.int n)
      | .float q => some (.int (ratTrunc q))
      | .bool b => some (.int (if b then 1 else 0))
      | _ => none
    else if t = "float" then
      match v with
      | .str s => (parsePyFloat s).map .float
      | .int n => some (.float (n : ℚ))
      | .float q => some (.float q)
      | .bool b => some (.float (if b then 1 else 0))
      | _ => none
    else if t = "bool" then
      match v with
      | .str s => some (.bool (pyToLower s == "true" || pyToLower s == "1" ||
          pyToLower s == "yes" || pyToLower s == "on"))
      | .int n => some (.bool (decide (n ≠ 0)))
      | .float q => some (.bool (decide (q ≠ 0)))
      | .bool b => some (.bool b)
      | .list xs => some (.bool (!xs.isEmpty))
      | .dict ps => some (.bool (!ps.isEmpty))
      | _ => some (.bool true)
    else if t = "array" then
      match v with
      | .str s =>
        match jsonParse s with
        | some (.list xs) => some (.list xs)
        | _ => some (.list ((s.splitOn ",").map (fun piece => .str (pyStrip piece))))
      | .list xs => some (.list xs)
      | w => some (.list [w])
    else if t = "dict" then
      match v with
      | .str s => jsonParse s
      | .dict ps => some (.dict ps)
      | w => some (.dict [("value", w)])
    else if t = "datetime" then
      match v with
      | .str s =>
        match tryDatetimeFormats s with
        | some dt => some dt
        | none => some (.str s)
      | w => some w
    else some v

/-- `TransformerConfig` from `config.py`: custom functions are the
callables `eval` builds from the configured lambda strings, embedded as
functions from the item to an optional result (`none` models a raised
exception inside the lambda). -/
structure TransformerConfig where
  fieldMapping : List (String × String) := []
  typeConversions : List (String × String) := []
  customFunctions : List (String × (Item → Option Value)) := []

/-- `DataTransformer._apply_field_mapping`: mapped fields first (in map
order), then the unmapped fields in item order. -/
def applyFieldMapping (mapping : List (String × String)) (it : Item) : Item :=
  if mapping.isEmpty then it
  else
    let mapped := mapping.foldl
      (fun acc p =>
        match dictGet it p.1 with
        | some v => dictSet acc p.2 v
        | none => acc) []
    it.foldl
      (fun acc p =>
        if (mapping.map Prod.fst).contains p.1 then acc else dictSet acc p.1 p.2)
      mapped

/-- `DataTransformer._apply_type_conversions`: convert each configured
field in place; a conversion failure keeps the original value (only a
warning is logged); absent and `None` fields are skipped. -/
def applyTypeConversions (convs : List (String × String)) (it : Item) : Item :=
  convs.foldl
    (fun acc p =>
      match dictGet acc p.1 with
      | some v =>
        if v = Value.null then acc
        else
          match convertType v p.2 with
          | some v' => dictSet acc p.1 v'
          | none => acc
      | none => acc)
    it

/-- `DataTransformer._apply_custom_functions`: each configured function is
evaluated against the incoming item; a failure stores `null` for that field
and never aborts the item. -/
def applyCustomFunctions (funcs : List (String × (Item → Option Value)))
    (it : Item) : Item :=
  funcs.foldl (fun acc p => dictSet acc p.1 ((p.2 it).getD Value.null)) it

/-- `DataTransformer._transform_item`: field mapping, then type
conversions, then custom functions. -/
def transformItem (cfg : TransformerConfig) (it : Item) : Item :=
  applyCustomFunctions cfg.customFunctions
    (applyTypeConversions cfg.typeConversions
      (applyFieldMapping cfg.fieldMapping it))

/-- The per-item loop of `DataTransformer.transform_data`: the body runs
under `try`, and an exception appends the original item instead. -/
def perItemBoundary (f : Item → Except String Item) (items : List Item) :
    List Item :=
  items.map (fun it => match f it with | .ok r => r | .error _ => it)

/-- `DataTransformer.transform_data`. `_transform_item` is total in the
model (every internal failure is already handled field-locally), so its
embedded body always returns `.ok`. -/
def transformData (cfg : TransformerConfig) (items : List Item) : List Item :=
  perItemBoundary (fun it => .ok (transformItem cfg it)) items

/-! ### Transformer: per-field and per-item error containment (C5) -/

theorem atcStep_preserve (acc : Item) (p : String × String) (f : String)
    (h : p.1 ≠ f) :
    dictGet
      (match dictGet acc p.1 with
       | some v =>
         if v = Value.null then acc
         else
           match convertType v p.2 with
           | some v' => dictSet acc p.1 v'
           | none => acc
       | none => acc) f = dictGet acc f := by
  cases dictGet acc p.1 with
  | none => rfl
  | some v =>
    by_cases hv : v = Value.null
    · simp only [if_pos hv]
    · simp only [if_neg hv]
      cases convertType v p.2 with
      | none => rfl
      | some v' => exact dictGet_set_ne acc p.1 f v' h

theorem applyTypeConversions_preserve (convs : List (String × String))
    (acc : Item) (f : String) (h : f ∉ convs.map Prod.fst) :
    dictGet (applyTypeConversions convs acc) f = dictGet acc f := by
  induction convs generalizing acc with
  | nil => rfl
  | cons q rest ih =>
    simp only [List.map_cons, List.mem_cons] at h
    push_neg at h
    show dictGet (applyTypeConversions rest _) f = _
    rw [ih _ h.2]
    exact atcStep_preserve acc q f (fun hq => h.1 hq.symm)

theorem applyTypeConversions_keeps_failed (convs : List (String × String))
    (it : Item) (f t : String) (v : Value)
    (hnd : (convs.map Prod.fst).Nodup) (hmem : (f, t) ∈ convs)
    (hget : dictGet it f = some v) (hnn : v ≠ Value.null)
    (hfail : convertType v t = none) :
    dictGet (applyTypeConversions convs it) f = some v := by
  induction convs generalizing it with
  | nil => cases hmem
  | cons q rest ih =>
    simp only [List.map_cons, List.nodup_cons] at hnd
    by_cases hq : q.1 = f
    · have hqe : q = (f, t) := by
        rcases List.mem_cons.mp hmem with h | h
        · exact h.symm
        · exact absurd (hq ▸ List.mem_map_of_mem Prod.fst h) hnd.1
      subst hqe
      show dictGet (applyTypeConversions rest _) f = some v
      rw [applyTypeConversions_preserve rest _ f hnd.1]
      simp only [hget, if_neg hnn, hfail]
    · rcases List.mem_cons.mp hmem with h | h
      · exact absurd (congrArg Prod.fst h.symm) hq
      · show dictGet (applyTypeConversions rest _) f = some v
        apply ih _ hnd.2 h
        rw [atcStep_preserve it q f hq]
        exact hget

/-- C5: a field whose type coercion fails keeps its original value (the
item is never dropped); `transform_data` returns exactly one output item
per input item, each output depending only on its own input; and at the
per-item `try` boundary an exception makes that one item pass through
unchanged without touching any sibling. -/
theorem C5_transform_failure_containment :
    (∀ (convs : List (String × String)) (it : Item) (f t : String) (v : Value),
        (convs.map Prod.fst).Nodup → (f, t) ∈ convs →
        dictGet it f = some v → v ≠ Value.null → convertType v t = none →
        dictGet (applyTypeConversions convs it) f = some v)
    ∧ (∀ (cfg : TransformerConfig) (items : List Item),
        transformData cfg items = items.map (transformItem cfg))
    ∧ (∀ (f : Item → Except String Item) (items : List Item),
        (perItemBoundary f items).length = items.length)
    ∧ (∀ (f : Item → Except String Item) (items : List Item) (i : ℕ)
        (it : Item), items[i]? = some it →
        (perItemBoundary f items)[i]? =
          some (match f it with | .ok r => r | .error _ => it)) := by
  refine ⟨applyTypeConversions_keeps_failed, fun cfg items => ?_,
    fun f items => ?_, fun f items i it hit => ?_⟩
  · rfl
  · exact List.length_map items _
  · unfold perItemBoundary
    rw [List.getElem?_map, hit]
    rfl

/-- Witness for C5: converting the non-numeric string `"abc"` to `int`
fails and the field keeps its value; a lambda that raises leaves its item
passed through while the sibling is still transformed. -/
theorem C5_transform_failure_containment_witness :
    dictGet
        (applyTypeConversions [("age", "int")] [("age", Value.str "abc")])
        "age" = some (Value.str "abc")
    ∧ (perItemBoundary
        (fun it => if it.isEmpty then .error "boom" else .ok it)
        [[], [("a", Value.int 1)]])[0]? = some [] :=
  ⟨C5_transform_failure_containment.1 [("age", "int")]
      [("age", Value.str "abc")] "age" "int" (Value.str "abc")
      (by decide) (by decide) (by decide) (by decide) (by decide),
   by
    have h := C5_transform_failure_containment.2.2.2
      (fun it => if it.isEmpty then .error "boom" else .ok it)
      [[], [("a", Value.int 1)]] 0 [] (by decide)
    rw [h]
    rfl⟩

/-! ## HTTP client (`src/http_client.py`): retry policy (C3) -/

/-- The exception classes relevant to `HTTPClient.fetch`:
`httpx.RequestError` (whose subclasses include `TimeoutException` and
`NetworkError` — the transient transport class), `httpx.HTTPStatusError`
raised by `raise_for_status()` (not a `RequestError` subclass), and any
other exception. -/
inductive HttpExc : Type where
  | requestError : HttpExc
  | httpStatusError (code : ℕ) : HttpExc
  | otherError : HttpExc
  deriving DecidableEq

/-- `retry_if_exception_type((httpx.RequestError, httpx.TimeoutException,
httpx.NetworkError))`: only transient transport errors are retried. -/
def isRetryableExc : HttpExc → Bool
  | .requestError => true
  | _ => false

/-- What the transport returns for one attempt: a response with a status
code, or a raised transport-level exception. -/
inductive TransportResult : Type where
  | ok (status : ℕ) : TransportResult
  | raise (e : HttpExc) : TransportResult
  deriving DecidableEq

/-- One execution of the `fetch` body: a transport error propagates; a
response runs `raise_for_status()`, which raises `HTTPStatusError` on a
4xx/5xx code and otherwise yields the result. -/
def attemptOnce (r : TransportResult) : Except HttpExc ℕ :=
  match r with
  | .raise e => .error e
  | .ok code => if 400 ≤ code then .error (.httpStatusError code) else .ok code

/-- What the caller of `fetch` observes. -/
inductive FetchOutcome : Type where
  | ok (status : ℕ) : FetchOutcome
  | raised (e : HttpExc) : FetchOutcome
  | retryError (cause : HttpExc) : FetchOutcome
  deriving DecidableEq

/-- The `tenacity` retry loop around the `fetch` body: `world i` is the
transport's behaviour on attempt `i`; the result pairs the number of
attempts made with the outcome. A retryable exception on the last allowed
attempt surfaces as `tenacity.RetryError` wrapping that exception
(`reraise` is not set); a non-retryable exception propagates at once. -/
def fetchGo (world : ℕ → TransportResult) (i : ℕ) : ℕ → ℕ × FetchOutcome
  | 0 => (i, .retryError .requestError)
  | left + 1 =>
    match attemptOnce (world i) with
    | .ok code => (i + 1, .ok code)
    | .error e =>
      if isRetryableExc e then
        match left with
        | 0 => (i + 1, .retryError e)
        | left' + 1 => fetchGo world (i + 1) (left' + 1)
      else (i + 1, .raised e)

/-- `stop_after_attempt(3)`: the attempt bound is the literal 3 in the
decorator (`max_retries` is stored but the decorator does not read it). -/
def fetchAttemptLimit : ℕ := 3

/-- `HTTPClient.fetch` under the retry decorator. -/
def fetch (world : ℕ → TransportResult) : ℕ × FetchOutcome :=
  fetchGo world 0 fetchAttemptLimit

/-- C3: when the transport raises a transient error on every attempt,
`fetch` makes exactly 3 attempts and surfaces the retry-exhaustion error
wrapping that transient cause (a transient-class error) to the caller; and
an HTTP 4xx/5xx status error is never retried — whatever attempt budget
remains, the loop stops immediately and propagates it. -/
theorem C3_fetch_retry_policy :
    (∀ world : ℕ → TransportResult,
        (∀ i, i < fetchAttemptLimit → world i = .raise .requestError) →
        fetch world = (3, .retryError .requestError)
          ∧ isRetryableExc .requestError = true)
    ∧ (∀ (world : ℕ → TransportResult) (i left code : ℕ),
        attemptOnce (world i) = .error (.httpStatusError code) →
        fetchGo world i (left + 1) = (i + 1, .raised (.httpStatusError code))) := by
  constructor
  · intro world h
    have h0 := h 0 (by decide)
    have h1 := h 1 (by decide)
    have h2 := h 2 (by decide)
    refine ⟨?_, rfl⟩
    simp [fetch, fetchAttemptLimit, fetchGo, h0, h1, h2, attemptOnce,
      isRetryableExc]
  · intro world i left code h
    simp [fetchGo, h, isRetryableExc]

/-- Witness for C3: an always-transient transport exhausts 3 attempts; a
404 response stops after one attempt with the status error. -/
theorem C3_fetch_retry_policy_witness :
    fetch (fun _ => .raise .requestError) = (3, .retryError .requestError)
    ∧ fetchGo (fun _ => TransportResult.ok 404) 0 (2 + 1)
      = (1, .raised (.httpStatusError 404)) :=
  ⟨(C3_fetch_retry_policy.1 (fun _ => .raise .requestError)
      (fun _ _ => rfl)).1,
   C3_fetch_retry_policy.2 (fun _ => TransportResult.ok 404) 0 2 404 rfl⟩

/-! ## Scraper (`src/scraper.py`): pagination traversal (C4) -/

/-- What one fetched page offers the traversal: the items extracted from it
and the already-resolved absolute next-page URL that `_get_next_url` would
return (`none` covers: no match for the selector, empty `href`/text, or an
exception inside `_get_next_url`). -/
structure Page : Type where
  items : List Item
  next : Option String
  deriving DecidableEq

/-- The slice of `TargetConfig` that drives `_scrape_static`: the start
URLs, whether pagination is enabled, and `max_pages`
(`base_url`/selectors are folded into the page world). -/
structure TargetConfig : Type where
  startUrls : List String
  pagEnabled : Bool
  maxPages : ℕ

/-- The `for url in urls_to_process` loop of `_scrape_static`.
`world url` is the outcome of fetching and parsing `url` (`none` models the
`except` path: the page is logged and skipped, traversal continues);
`pending` is the not-yet-visited tail of `urls_to_process`; `processed` is
`processed_urls` (a URL is added right before its fetch); `total` is
`len(urls_to_process)` — the total number of URLs ever enqueued. Returns
(the URLs actually fetched, in order; the items accumulated).

The Python loop always terminates: every iteration consumes one pending
URL and at most one URL is appended per visited page, with the
`len(urls_to_process) > max_pages` check breaking as soon as the total
enqueued passes `max_pages` — so `pending.length + (maxPages + 1 - total)`
strictly decreases. The structural `fuel` argument is headroom for that
measure; `scrapeStatic` supplies more than enough, and
`scrapeGo_fuel_stable` below shows the result is then fuel-independent. -/
def scrapeGo (world : String → Option Page) (enabled : Bool) (maxPages : ℕ) :
    ℕ → List String → List String → ℕ → List String × List Item
  | 0, _, _, _ => ([], [])
  | fuel + 1, pending, processed, total =>
    match pending with
    | [] => ([], [])
    | url :: rest =>
      if url ∈ processed then
        scrapeGo world enabled maxPages fuel rest processed total
      else
        match world url with
        | none =>
          let r := scrapeGo world enabled maxPages fuel rest (url :: processed) total
          (url :: r.1, r.2)
        | some page =>
          match (if enabled then page.next else none) with
          | some nxt =>
            if nxt ∈ url :: processed then
              let r := scrapeGo world enabled maxPages fuel rest (url :: processed) total
              (url :: r.1, page.items ++ r.2)
            else
              if total + 1 > maxPages then (url :: [], page.items)
              else
                let r := scrapeGo world enabled maxPages fuel (rest ++ [nxt])
                  (url :: processed) (total + 1)
                (url :: r.1, page.items ++ r.2)
          | none =>
            let r := scrapeGo world enabled maxPages fuel rest (url :: processed) total
            (url :: r.1, page.items ++ r.2)

/-- `Scraper._scrape_static` on one target. -/
def scrapeStatic (world : String → Option Page) (cfg : TargetConfig) :
    List String × List Item :=
  scrapeGo world cfg.pagEnabled cfg.maxPages
    (cfg.startUrls.length + cfg.maxPages + 2) cfg.startUrls []
    cfg.startUrls.length

/-- Single-step unfolding of the loop on a pending URL (definitional). -/
theorem scrapeGo_cons (world : String → Option Page) (enabled : Bool)
    (maxPages fuel : ℕ) (url : String) (rest processed : List String)
    (total : ℕ) :
    scrapeGo world enabled maxPages (fuel + 1) (url :: rest) processed total =
      if url ∈ processed then
        scrapeGo world enabled maxPages fuel rest processed total
      else
        match world url with
        | none =>
          let r := scrapeGo world enabled maxPages fuel rest (url :: processed) total
          (url :: r.1, r.2)
        | some page =>
          match (if enabled then page.next else none) with
          | some nxt =>
            if nxt ∈ url :: processed then
              let r := scrapeGo world enabled maxPages fuel rest (url :: processed) total
              (url :: r.1, page.items ++ r.2)
            else
              if total + 1 > maxPages then (url :: [], page.items)
              else
                let r := scrapeGo world enabled maxPages fuel (rest ++ [nxt])
                  (url :: processed) (total + 1)
                (url :: r.1, page.items ++ r.2)
          | none =>
            let r := scrapeGo world enabled maxPages fuel rest (url :: processed) total
            (url :: r.1, page.items ++ r.2) := rfl

/-- With fuel at least the loop measure, the traversal's result no longer
depends on the fuel — the structural bound never truncates the loop. -/
theorem scrapeGo_fuel_stable (world : String → Option Page) (enabled : Bool)
    (maxPages : ℕ) :
    ∀ (fuel : ℕ) (pending processed : List String) (total : ℕ),
      pending.length + (maxPages + 1 - total) ≤ fuel →
      scrapeGo world enabled maxPages (fuel + 1) pending processed total =
        scrapeGo world enabled maxPages fuel pending processed total := by
  intro fuel
  induction fuel with
  | zero =>
    intro pending processed total h
    cases pending with
    | nil => rfl
    | cons url rest =>
      exfalso
      simp only [List.length_cons] at h
      omega
  | succ fuel ih =>
    intro pending processed total h
    cases pending with
    | nil => rfl
    | cons url rest =>
      simp only [List.length_cons] at h
      rw [scrapeGo_cons, scrapeGo_cons]
      by_cases hmem : url ∈ processed
      · rw [if_pos hmem, if_pos hmem]
        exact ih rest processed total (by omega)
      · rw [if_neg hmem, if_neg hmem]
        cases hw : world url with
        | none =>
          simp only [hw]
          rw [ih rest (url :: processed) total (by omega)]
        | some page =>
          simp only [hw]
          cases hnext : (if enabled then page.next else none) with
          | none =>
            simp only [hnext]
            rw [ih rest (url :: processed) total (by omega)]
          | some nxt =>
            simp only [hnext]
            by_cases hn : nxt ∈ url :: processed
            · rw [if_pos hn, if_pos hn,
                ih rest (url :: processed) total (by omega)]
            · rw [if_neg hn, if_neg hn]
              by_cases htot : total + 1 > maxPages
              · rw [if_pos htot, if_pos htot]
              · rw [if_neg htot, if_neg htot,
                  ih (rest ++ [nxt]) (url :: processed) (total + 1)
                    (by simp only [List.length_append, List.length_cons,
                      List.length_nil]; omega)]

/-- No URL is fetched twice, and every fetched URL was outside the
processed set when the loop reached it. -/
theorem scrapeGo_visited_nodup (world : String → Option Page)
    (enabled : Bool) (maxPages : ℕ) :
    ∀ (fuel : ℕ) (pending processed : List String) (total : ℕ),
      (scrapeGo world enabled maxPages fuel pending processed total).1.Nodup ∧
      ∀ u ∈ (scrapeGo world enabled maxPages fuel pending processed total).1,
        u ∉ processed := by
  intro fuel
  induction fuel with
  | zero =>
    intro pending processed total
    exact ⟨List.nodup_nil, fun u hu => absurd hu (List.not_mem_nil u)⟩
  | succ fuel ih =>
    intro pending processed total
    cases pending with
    | nil => exact ⟨List.nodup_nil, fun u hu => absurd hu (List.not_mem_nil u)⟩
    | cons url rest =>
      rw [scrapeGo_cons]
      by_cases hmem : url ∈ processed
      · rw [if_pos hmem]
        exact ih rest processed total
      · rw [if_neg hmem]
        have step : ∀ (out r : List String × List Item),
            out.1 = url :: r.1 →
            r.1.Nodup → (∀ u ∈ r.1, u ∉ url :: processed) →
            out.1.Nodup ∧ ∀ u ∈ out.1, u ∉ processed := by
          intro out r hout h1 h2
          rw [hout]
          constructor
          · exact List.nodup_cons.mpr
              ⟨fun hu => (h2 url hu) (List.mem_cons_self url processed), h1⟩
          · intro u hu
            rcases List.mem_cons.mp hu with rfl | hu'
            · exact hmem
            · exact fun hc => (h2 u hu') (List.mem_cons_of_mem url hc)
        cases hw : world url with
        | none =>
          simp only [hw]
          exact step
            (url :: (scrapeGo world enabled maxPages fuel rest (url :: processed) total).1,
              (scrapeGo world enabled maxPages fuel rest (url :: processed) total).2)
            (scrapeGo world enabled maxPages fuel rest (url :: processed) total)
            rfl (ih rest (url :: processed) total).1
            (ih rest (url :: processed) total).2
        | some page =>
          simp only [hw]
          cases hnext : (if enabled then page.next else none) with
          | none =>
            simp only [hnext]
            exact step
              (url :: (scrapeGo world enabled maxPages fuel rest (url :: processed) total).1,
                page.items ++ (scrapeGo world enabled maxPages fuel rest (url :: processed) total).2)
              (scrapeGo world enabled maxPages fuel rest (url :: processed) total)
              rfl (ih rest (url :: processed) total).1
              (ih rest (url :: processed) total).2
          | some nxt =>
            simp only [hnext]
            by_cases hn : nxt ∈ url :: processed
            · rw [if_pos hn]
              exact step
                (url :: (scrapeGo world enabled maxPages fuel rest (url :: processed) total).1,
                  page.items ++ (scrapeGo world enabled maxPages fuel rest (url :: processed) total).2)
                (scrapeGo world enabled maxPages fuel rest (url :: processed) total)
                rfl (ih rest (url :: processed) total).1
                (ih rest (url :: processed) total).2
            · rw [if_neg hn]
              by_cases htot : total + 1 > maxPages
              · rw [if_pos htot]
                refine ⟨List.nodup_cons.mpr ⟨List.not_mem_nil url, List.nodup_nil⟩,
                  fun u hu => ?_⟩
                rcases List.mem_cons.mp hu with rfl | hu'
                · exact hmem
                · exact absurd hu' (List.not_mem_nil u)
              · rw [if_neg htot]
                exact step
                  (url :: (scrapeGo world enabled maxPages fuel (rest ++ [nxt]) (url :: processed) (total + 1)).1,
                    page.items ++ (scrapeGo world enabled maxPages fuel (rest ++ [nxt]) (url :: processed) (total + 1)).2)
                  (scrapeGo world enabled maxPages fuel (rest ++ [nxt]) (url :: processed) (total + 1))
                  rfl
                  (ih (rest ++ [nxt]) (url :: processed) (total + 1)).1
                  (ih (rest ++ [nxt]) (url :: processed) (total + 1)).2

/-- The number of URLs fetched is bounded by the pending count plus the
remaining enqueue budget. -/
theorem scrapeGo_visited_length (world : String → Option Page)
    (enabled : Bool) (maxPages : ℕ) :
    ∀ (fuel : ℕ) (pending processed : List String) (total : ℕ),
      (scrapeGo world enabled maxPages fuel pending processed total).1.length ≤
        pending.length + (maxPages - total) := by
  intro fuel
  induction fuel with
  | zero =>
    intro pending processed total
    simp [scrapeGo]
  | succ fuel ih =>
    intro pending processed total
    cases pending with
    | nil => simp [scrapeGo]
    | cons url rest =>
      rw [scrapeGo_cons]
      by_cases hmem : url ∈ processed
      · rw [if_pos hmem]
        have := ih rest processed total
        simp only [List.length_cons]
        omega
      · rw [if_neg hmem]
        cases hw : world url with
        | none =>
          simp only [hw]
          have := ih rest (url :: processed) total
          simp only [List.length_cons]
          omega
        | some page =>
          simp only [hw]
          cases hnext : (if enabled then page.next else none) with
          | none =>
            simp only [hnext]
            have := ih rest (url :: processed) total
            simp only [List.length_cons]
            omega
          | some nxt =>
            simp only [hnext]
            by_cases hn : nxt ∈ url :: processed
            · rw [if_pos hn]
              have := ih rest (url :: processed) total
              simp only [List.length_cons]
              omega
            · rw [if_neg hn]
              by_cases htot : total + 1 > maxPages
              · rw [if_pos htot]
                simp only [List.length_cons, List.length_nil]
                omega
              · rw [if_neg htot]
                have := ih (rest ++ [nxt]) (url :: processed) (total + 1)
                simp only [List.length_cons, List.length_append,
                  List.length_nil] at this ⊢
                omega

/-- C4 (amended): a static pagination traversal never fetches a resolved
URL twice; the number of pages fetched is bounded by
`max(len(start_urls), max_pages)`; and with a single start URL (and the
config-enforced `max_pages ≥ 1`) it never exceeds `max_pages`.
(The claim's unconditional `≤ max_pages` bound fails when more start URLs
than `max_pages` are configured and no next link is found, because the
`len(urls_to_process) > max_pages` break is only checked after a next link
is enqueued; see the counterexample.) -/
theorem C4_pagination_traversal (world : String → Option Page)
    (cfg : TargetConfig) :
    (scrapeStatic world cfg).1.Nodup
    ∧ (scrapeStatic world cfg).1.length ≤ max cfg.startUrls.length cfg.maxPages
    ∧ (∀ u, cfg.startUrls = [u] → 1 ≤ cfg.maxPages →
        (scrapeStatic world cfg).1.length ≤ cfg.maxPages) := by
  refine ⟨(scrapeGo_visited_nodup world cfg.pagEnabled cfg.maxPages _ _ _ _).1,
    ?_, ?_⟩
  · have := scrapeGo_visited_length world cfg.pagEnabled cfg.maxPages
      (cfg.startUrls.length + cfg.maxPages + 2) cfg.startUrls []
      cfg.startUrls.length
    unfold scrapeStatic
    omega
  · intro u hu _
    have := scrapeGo_visited_length world cfg.pagEnabled cfg.maxPages
      (cfg.startUrls.length + cfg.maxPages + 2) cfg.startUrls []
      cfg.startUrls.length
    unfold scrapeStatic
    rw [hu] at this ⊢
    simp only [List.length_cons, List.length_nil] at this ⊢
    omega

/-- Witness for C4 at a concrete world: one start URL chaining
`a → b → c → d` with `max_pages = 2` fetches exactly `[a, b]`. -/
theorem C4_pagination_traversal_witness :
    (scrapeStatic
        (fun u =>
          if u = "a" then some { items := [], next := some "b" }
          else if u = "b" then some { items := [], next := some "c" }
          else if u = "c" then some { items := [], next := some "d" }
          else none)
        { startUrls := ["a"], pagEnabled := true, maxPages := 2 }).1
      = ["a", "b"]
    ∧ (scrapeStatic
        (fun u =>
          if u = "a" then some { items := [], next := some "b" }
          else if u = "b" then some { items := [], next := some "c" }
          else if u = "c" then some { items := [], next := some "d" }
          else none)
        { startUrls := ["a"], pagEnabled := true, maxPages := 2 }).1.length ≤ 2 :=
  ⟨by decide,
   (C4_pagination_traversal
      (fun u =>
        if u = "a" then some { items := [], next := some "b" }
        else if u = "b" then some { items := [], next := some "c" }
        else if u = "c" then some { items := [], next := some "d" }
        else none)
      { startUrls := ["a"], pagEnabled := true, maxPages := 2 }).2.2 "a" rfl
     (by decide)⟩

/-- C4 counterexample: three start URLs with pagination enabled but no next
links anywhere: all three pages are fetched although `max_pages = 2` — the
traversal neither halts when a page has no next link nor keeps the visit
count within `max_pages`. -/
theorem C4_counterexample :
    (scrapeStatic
        (fun u =>
          if u = "a" ∨ u = "b" ∨ u = "c"
          then some { items := [], next := none } else none)
        { startUrls := ["a", "b", "c"], pagEnabled := true, maxPages := 2 }).1
      = ["a", "b", "c"]
    ∧ ¬((scrapeStatic
        (fun u =>
          if u = "a" ∨ u = "b" ∨ u = "c"
          then some { items := [], next := none } else none)
        { startUrls := ["a", "b", "c"], pagEnabled := true,
          maxPages := 2 }).1.length ≤ 2) := by
  decide

/-! ## Scheduler (`src/scheduler.py`): job failure handling (C7) -/

/-- `SchedulerManager.job_stats`. -/
structure SchedulerStats : Type where
  totalRuns : ℕ := 0
  successfulRuns : ℕ := 0
  failedRuns : ℕ := 0
  deriving DecidableEq

/-- `SchedulerManager.update_job_stats` — defined in the source but, note,
never invoked by any code path in `scheduler.py`. -/
def updateJobStats (st : SchedulerStats) (success : Bool) : SchedulerStats :=
  { totalRuns := st.totalRuns + 1
    successfulRuns := if success then st.successfulRuns + 1 else st.successfulRuns
    failedRuns := if success then st.failedRuns else st.failedRuns + 1 }

/-- `JobRunner.run`: run the job function (the embedded callable, whose
`none`-free failure channel is `Except`); on success log and return the
result, on an exception log it and **re-raise** (`raise` on line 51) — the
exception leaves the runner and is absorbed by the scheduling library's
executor. Returns (what escapes the runner, the log lines). -/
def jobRunnerRun (jobFunc : Unit → Except String Value) :
    Except String Value × List String :=
  match jobFunc () with
  | .ok r => (.ok r, ["Job completed successfully"])
  | .error e => (.error e, ["Job execution failed: " ++ e])

/-- The scheduler-side effect of a sequence of independent firings on the
manager: each firing invokes `JobRunner.run` on its own job function, and —
since no code path in `scheduler.py` feeds a firing's outcome to
`update_job_stats` — the manager's `job_stats` comes back unchanged. -/
def fireJobs (st : SchedulerStats) (jobs : List (Unit → Except String Value)) :
    SchedulerStats × List (Except String Value) :=
  (st, jobs.map (fun j => (jobRunnerRun j).1))

/-- C7 counterexample: a failing job's exception is logged but **escapes**
the job-runner boundary (`JobRunner.run` re-raises it), and a firing leaves
the aggregate `{total, successful, failed}` counters untouched — they stay
at their initial zeros, so the failure is never tallied. -/
theorem C7_counterexample :
    jobRunnerRun (fun _ => .error "boom")
      = (.error "boom", ["Job execution failed: boom"])
    ∧ (fireJobs {} [fun _ => .error "boom"]).1 = ({} : SchedulerStats)
    ∧ ({} : SchedulerStats).failedRuns = 0 :=
  ⟨rfl, rfl, rfl⟩

/-- C7 (amended): an exception raised inside a fired job function is caught
at the job-runner boundary, logged, and then re-raised to the scheduling
library (so it does not terminate the scheduler, but it does leave the
runner); every firing produces exactly one outcome, depending only on its
own job function, so one job's failure cannot affect a sibling firing or the
manager state; and the aggregate counters are never updated by firings —
`update_job_stats`, which would tally them as the claim describes, exists
but has no caller. -/
theorem C7_job_failure_isolation (st : SchedulerStats)
    (jobs : List (Unit → Except String Value)) :
    (fireJobs st jobs).1 = st
    ∧ (fireJobs st jobs).2.length = jobs.length
    ∧ (∀ (i : ℕ) (j : Unit → Except String Value), jobs[i]? = some j →
        (fireJobs st jobs).2[i]? = some (jobRunnerRun j).1)
    ∧ (∀ (f : Unit → Except String Value) (e : String), f () = .error e →
        jobRunnerRun f = (.error e, ["Job execution failed: " ++ e]))
    ∧ (∀ (st' : SchedulerStats) (b : Bool),
        (updateJobStats st' b).totalRuns = st'.totalRuns + 1
          ∧ (updateJobStats st' true).successfulRuns = st'.successfulRuns + 1
          ∧ (updateJobStats st' false).failedRuns = st'.failedRuns + 1) := by
  refine ⟨rfl, List.length_map jobs _, fun i j hj => ?_, fun f e hf => ?_,
    fun st' b => ⟨rfl, rfl, rfl⟩⟩
  · unfold fireJobs
    rw [List.getElem?_map, hj]
    rfl
  · unfold jobRunnerRun
    rw [hf]

/-- Witness for C7 at concrete inputs: one failing and one succeeding job. -/
theorem C7_job_failure_isolation_witness :
    (fireJobs { totalRuns := 5 }
        [fun _ => .error "x", fun _ => .ok (Value.int 1)]).2[0]?
      = some (jobRunnerRun (fun _ => .error "x")).1
    ∧ jobRunnerRun (fun _ => .error "x")
      = (.error "x", ["Job execution failed: x"]) :=
  ⟨(C7_job_failure_isolation { totalRuns := 5 }
      [fun _ => .error "x", fun _ => .ok (Value.int 1)]).2.2.1 0
      (fun _ => .error "x") rfl,
   (C7_job_failure_isolation { totalRuns := 5 } []).2.2.2.1
      (fun _ => .error "x") "x" rfl⟩

/-! ## Storage adapters (`src/storage/csv_storage.py`,
`src/storage/jsonl_storage.py`)

The physical files are modelled at the level the adapters observe:
* a CSV file is a list of records of cells (`csv.writer`/`csv.reader`
  round-trip arbitrary cell strings via quoting, which is their
  library contract), `none` meaning the file does not exist;
* a JSONL file is a list of text lines, `none` meaning it does not exist.
-/

/-- `sorted(list(all_fields))` over the union of the batch's keys
(`CSVStorageAdapter.save` lines 82-87): sorted, duplicates collapsed. -/
def sortedFieldnames (items : List Item) : List String :=
  List.insertionSort (fun a b => strLe a b = true)
    (dedupKeys (items.foldl (fun acc it => acc ++ dictKeys it) []))

/-- One CSV cell as written by `_prepare_csv_content`: absent fields and
`None` become the empty string, lists/dicts are embedded as JSON
(`json.dumps` with its default `", "`/`": "` separators), everything else
is `str(value)`. -/
def encodeCsvCell : Option Value → String
  | none => ""
  | some .null => ""
  | some (.list xs) => ⟨jsonDumpsVal ", " ": " (.list xs)⟩
  | some (.dict ps) => ⟨jsonDumpsVal ", " ": " (.dict ps)⟩
  | some v => pyStr v

/-- The adapter options that matter to `save`:`write_header` and the
append/overwrite mode. -/
structure CsvAdapterCfg : Type where
  writeHeader : Bool := true
  mode : String := "a"

/-- `CSVStorageAdapter.save`: empty batches return `True` touching
nothing; otherwise the header is written when the file is absent or the
mode is overwrite, and one record per item is appended, over the sorted
union of the batch's field names. -/
def csvSave (cfg : CsvAdapterCfg) (file : Option (List (List String)))
    (items : List Item) : Bool × Option (List (List String)) :=
  if items.isEmpty then (true, file)
  else
    let shouldWriteHeader := cfg.writeHeader && (!file.isSome || cfg.mode == "w")
    let fieldnames := sortedFieldnames items
    let rows := items.map (fun it => fieldnames.map (fun f => encodeCsvCell (dictGet it f)))
    let prior := if cfg.mode == "w" then [] else file.getD []
    (true, some (prior ++ (if shouldWriteHeader then [fieldnames] else []) ++ rows))

/-- Cell decoding in `CSVStorageAdapter.load`: a non-empty cell starting
with `{` or `[` is JSON-decoded (kept as the string on a decode error),
every other cell is the string itself. -/
def decodeCsvCell (s : String) : Value :=
  if s ≠ "" ∧ (s.data.head? = some '\x7b' ∨ s.data.head? = some '[') then
    match jsonParse s with
    | some v => v
    | none => .str s
  else .str s

/-- `if limit and len(items) >= limit` — Python's falsy `0` means
"no limit". -/
def pyLimitReached (limit : Option ℕ) (n : ℕ) : Bool :=
  match limit with
  | none => false
  | some l => decide (0 < l) && decide (l ≤ n)

/-- The `DictReader` row loop of `CSVStorageAdapter.load` (rows have the
header's length for files written by `save`). -/
def csvLoadRows (header : List String) (limit : Option ℕ) :
    List (List String) → List Item → List Item
  | [], acc => acc
  | row :: rest, acc =>
    let item := (header.zip row).map (fun p => (p.1, decodeCsvCell p.2))
    let acc' := acc ++ [item]
    if pyLimitReached limit acc'.length then acc'
    else csvLoadRows header limit rest acc'

/-- `CSVStorageAdapter.load`: missing file gives `[]`; otherwise the first
record is the header and the rest are data rows. -/
def csvLoad (file : Option (List (List String))) (limit : Option ℕ) :
    List Item :=
  match file with
  | none => []
  | some [] => []
  | some (header :: rows) => csvLoadRows header limit rows []

/-- The JSONL adapter option that matters to `save`. -/
structure JsonlAdapterCfg : Type where
  mode : String := "a"

/-- `JSONLStorageAdapter.save`: empty batches return `True` touching
nothing; otherwise one compact JSON document per item
(`separators=(',', ':')`, `ensure_ascii=False`) is appended as a line. -/
def jsonlSave (cfg : JsonlAdapterCfg) (file : Option (List String))
    (items : List Item) : Bool × Option (List String) :=
  if items.isEmpty then (true, file)
  else
    let lines := items.map (fun it => (⟨jsonDumpsVal "," ":" (.dict it)⟩ : String))
    let prior := if cfg.mode == "w" then [] else file.getD []
    (true, some (prior ++ lines))

/-- The line loop of `JSONLStorageAdapter.load`: blank lines and invalid
JSON lines are skipped, the rest are parsed in order up to the limit. -/
def jsonlLoadLines (limit : Option ℕ) : List String → List Value → List Value
  | [], acc => acc
  | line :: rest, acc =>
    if pyStrip line == "" then jsonlLoadLines limit rest acc
    else
      match jsonParse (pyStrip line) with
      | none => jsonlLoadLines limit rest acc
      | some v =>
        let acc' := acc ++ [v]
        if pyLimitReached limit acc'.length then acc'
        else jsonlLoadLines limit rest acc'

/-- `JSONLStorageAdapter.load`. -/
def jsonlLoad (file : Option (List String)) (limit : Option ℕ) : List Value :=
  match file with
  | none => []
  | some lines => jsonlLoadLines limit lines []

/-- C10: for both file backends, saving the empty batch returns `True` and
leaves the storage state exactly as it was — in particular, an absent file
stays absent and no header record is written. -/
theorem C10_empty_save_is_noop (ccfg : CsvAdapterCfg) (jcfg : JsonlAdapterCfg)
    (cf : Option (List (List String))) (jf : Option (List String)) :
    csvSave ccfg cf [] = (true, cf)
    ∧ jsonlSave jcfg jf [] = (true, jf)
    ∧ csvSave ccfg none [] = (true, none)
    ∧ jsonlSave jcfg none [] = (true, none) :=
  ⟨rfl, rfl, rfl, rfl⟩

/-! ## Storage round trip (C6): `json.dumps`/`json.loads` inverse pair,
CSV cell encode/decode, and the save/load composites -/

theorem takeWhile_append_all {p : Char → Bool} :
    ∀ (l1 l2 : List Char), (∀ c ∈ l1, p c = true) →
      (l1 ++ l2).takeWhile p = l1 ++ l2.takeWhile p
  | [], _, _ => rfl
  | c :: l1, l2, h => by
    simp only [List.cons_append, List.takeWhile_cons, h c (by simp), if_true]
    rw [takeWhile_append_all l1 l2 (fun x hx => h x (by simp [hx]))]

theorem dropWhile_append_all {p : Char → Bool} :
    ∀ (l1 l2 : List Char), (∀ c ∈ l1, p c = true) →
      (l1 ++ l2).dropWhile p = l2.dropWhile p
  | [], _, _ => rfl
  | c :: l1, l2, h => by
    simp only [List.cons_append, List.dropWhile_cons, h c (by simp), if_true]
    exact dropWhile_append_all l1 l2 (fun x hx => h x (by simp [hx]))

theorem skipWs_ws_prefix (pre cs : List Char) (h : ∀ c ∈ pre, isJsonWs c = true) :
    skipWs (pre ++ cs) = skipWs cs :=
  dropWhile_append_all pre cs h

theorem skipWs_cons_of_not (c : Char) (cs : List Char) (h : isJsonWs c = false) :
    skipWs (c :: cs) = c :: cs := by
  simp [skipWs, List.dropWhile_cons, h]

theorem digitCharFacts : ∀ d : ℕ, d < 10 →
    (Char.ofNat (48 + d)).toNat = 48 + d
    ∧ (Char.ofNat (48 + d)).isDigit = true
    ∧ isJsonWs (Char.ofNat (48 + d)) = false
    ∧ Char.ofNat (48 + d) ≠ 'n' ∧ Char.ofNat (48 + d) ≠ 't'
    ∧ Char.ofNat (48 + d) ≠ 'f' ∧ Char.ofNat (48 + d) ≠ '"'
    ∧ Char.ofNat (48 + d) ≠ '[' ∧ Char.ofNat (48 + d) ≠ '\x7b'
    ∧ Char.ofNat (48 + d) ≠ ']' ∧ Char.ofNat (48 + d) ≠ '-'
    ∧ (Char.ofNat (48 + d) = '0' → d = 0) := by decide

theorem hexEscFacts : ∀ n : ℕ, n < 32 →
    parseHexDigit (hexDigitChar (n / 16)) = some (n / 16)
    ∧ parseHexDigit (hexDigitChar (n % 16)) = some (n % 16)
    ∧ Nat.isValidChar n := by decide

def goodJsonTail (tail : List Char) : Prop :=
  ∀ c, tail.head? = some c → c = ',' ∨ c = ']' ∨ c = '\x7d'

theorem goodJsonTail_nil : goodJsonTail [] := fun c h => by simp at h

theorem goodJsonTail_cons (c : Char) (t : List Char)
    (h : c = ',' ∨ c = ']' ∨ c = '\x7d') : goodJsonTail (c :: t) :=
  fun c' h' => by
    simp only [List.head?_cons, Option.some.injEq] at h'
    exact h' ▸ h

theorem goodJsonTail_facts (tail : List Char) (h : goodJsonTail tail) :
    tail.takeWhile Char.isDigit = []
    ∧ tail.dropWhile Char.isDigit = tail
    ∧ tail.head? ≠ some '.'
    ∧ tail.head? ≠ some 'e'
    ∧ tail.head? ≠ some 'E'
    ∧ tail.head? ≠ some '-'
    ∧ skipWs tail = tail := by
  cases tail with
  | nil => exact ⟨rfl, rfl, by simp, by simp, by simp, by simp, rfl⟩
  | cons c t =>
    rcases h c rfl with rfl | rfl | rfl <;>
      exact ⟨by simp [List.takeWhile_cons], by simp [List.dropWhile_cons],
        by simp, by simp, by simp, by simp, skipWs_cons_of_not _ _ (by decide)⟩

theorem dictSet_eq_append (acc : Item) (k : String) (v : Value)
    (h : dictGet acc k = none) : dictSet acc k v = acc ++ [(k, v)] := by
  induction acc with
  | nil => rfl
  | cons p rest ih =>
    obtain ⟨k', v'⟩ := p
    by_cases hk : k' = k
    · simp [dictGet, hk] at h
    · simp only [dictGet, if_neg hk] at h
      simp [dictSet, hk, ih h]

theorem dictGet_append_none (acc : Item) (k' : String) (kv : String × Value)
    (h1 : dictGet acc k' = none) (h2 : kv.1 ≠ k') :
    dictGet (acc ++ [kv]) k' = none := by
  obtain ⟨a, b⟩ := kv
  induction acc with
  | nil => simp only [List.nil_append, dictGet, if_neg h2]
  | cons p rest ih =>
    obtain ⟨k0, v0⟩ := p
    by_cases hk : k0 = k'
    · simp [dictGet, hk] at h1
    · simp only [dictGet, if_neg hk] at h1
      simpa only [List.cons_append, dictGet, if_neg hk] using ih h1

theorem escFold_append : ∀ (l i t : List Char),
    (l.foldr (fun c acc => escapeJsonChar c ++ acc) i) ++ t
      = l.foldr (fun c acc => escapeJsonChar c ++ acc) (i ++ t)
  | [], _, _ => rfl
  | c :: l, i, t => by
    simp only [List.foldr_cons, List.append_assoc, escFold_append l i t]

theorem escapeJsonString_append (s : String) (t : List Char) :
    escapeJsonString s ++ t
      = '"' :: s.data.foldr (fun c acc => escapeJsonChar c ++ acc) ('"' :: t) := by
  simp only [escapeJsonString, List.cons_append, escFold_append]
  rfl

theorem parseJsonStringBody_escFold : ∀ (l rest : List Char),
    parseJsonStringBody (l.foldr (fun c acc => escapeJsonChar c ++ acc) ('"' :: rest))
      = some (l, rest)
  | [], rest => by rw [parseJsonStringBody.eq_def]; simp
  | c :: l, rest => by
    have ih := parseJsonStringBody_escFold l rest
    simp only [List.foldr_cons]
    by_cases h1 : c = '"'
    · subst h1
      rw [show escapeJsonChar '"' = ['\\', '"'] from rfl, parseJsonStringBody.eq_def]
      simp [ih]
    by_cases h2 : c = '\\'
    · subst h2
      rw [show escapeJsonChar '\\' = ['\\', '\\'] from rfl, parseJsonStringBody.eq_def]
      simp [ih]
    by_cases h3 : c = '\n'
    · subst h3
      rw [show escapeJsonChar '\n' = ['\\', 'n'] from rfl, parseJsonStringBody.eq_def]
      simp [ih]
    by_cases h4 : c = '\t'
    · subst h4
      rw [show escapeJsonChar '\t' = ['\\', 't'] from rfl, parseJsonStringBody.eq_def]
      simp [ih]
    by_cases h5 : c = '\r'
    · subst h5
      rw [show escapeJsonChar '\r' = ['\\', 'r'] from rfl, parseJsonStringBody.eq_def]
      simp [ih]
    by_cases h6 : c = '\x08'
    · subst h6
      rw [show escapeJsonChar '\x08' = ['\\', 'b'] from rfl, parseJsonStringBody.eq_def]
      simp [ih]
    by_cases h7 : c = '\x0c'
    · subst h7
      rw [show escapeJsonChar '\x0c' = ['\\', 'f'] from rfl, parseJsonStringBody.eq_def]
      simp [ih]
    by_cases hlt : c.toNat < 32
    · have hfx := hexEscFacts c.toNat hlt
      have hn : c.toNat / 16 * 16 + c.toNat % 16 = c.toNat := by omega
      have he : escapeJsonChar c
          = ['\\', 'u', '0', '0', hexDigitChar (c.toNat / 16),
             hexDigitChar (c.toNat % 16)] := by
        simp only [escapeJsonChar, if_neg h1, if_neg h2, if_neg h3, if_neg h4,
          if_neg h5, if_neg h6, if_neg h7, if_pos hlt]
      rw [he, parseJsonStringBody.eq_def]
      simp [show parseHexDigit '0' = some 0 from rfl, hfx.1, hfx.2.1,
        hfx.2.2, hn, ih, Char.ofNat_toNat]
    · have he : escapeJsonChar c = [c] := by
        simp only [escapeJsonChar, if_neg h1, if_neg h2, if_neg h3, if_neg h4,
          if_neg h5, if_neg h6, if_neg h7, if_neg hlt]
      rw [he, parseJsonStringBody.eq_def]
      simp [h1, h2, hlt, ih]

theorem digitsToNat_append_digit (l : List Char) (c : Char) :
    digitsToNat (l ++ [c]) = 10 * digitsToNat l + (c.toNat - 48) := by
  simp [digitsToNat, List.foldl_append]

theorem digitsToNat_ofDigits : ∀ ds : List ℕ, (∀ d ∈ ds, d < 10) →
    digitsToNat (ds.reverse.map (fun d => Char.ofNat (48 + d))) = Nat.ofDigits 10 ds
  | [], _ => rfl
  | d :: ds, h => by
    have hd := (digitCharFacts d (h d (by simp))).1
    simp only [List.reverse_cons, List.map_append, List.map_cons, List.map_nil]
    rw [digitsToNat_append_digit,
      digitsToNat_ofDigits ds (fun x hx => h x (by simp [hx])),
      Nat.ofDigits_cons, hd]
    omega

theorem digitsToNat_natToDigitChars (n : ℕ) :
    digitsToNat (natToDigitChars n) = n := by
  rw [natToDigitChars_eq,
    digitsToNat_ofDigits _ (fun d hd => Nat.digits_lt_base (by norm_num) hd),
    Nat.ofDigits_digits]

theorem natToDigitChars_mem (n : ℕ) :
    ∀ c ∈ natToDigitChars n, ∃ d, d < 10 ∧ c = Char.ofNat (48 + d) := by
  rw [natToDigitChars_eq]
  intro c hc
  obtain ⟨d, hd, rfl⟩ := List.mem_map.mp hc
  exact ⟨d, Nat.digits_lt_base (by norm_num) (List.mem_reverse.mp hd), rfl⟩

theorem natToDigitChars_head (n : ℕ) (hn : n ≠ 0) :
    ∃ d r, d < 10 ∧ d ≠ 0 ∧ natToDigitChars n = Char.ofNat (48 + d) :: r := by
  have hne : Nat.digits 10 n ≠ [] := Nat.digits_ne_nil_iff_ne_zero.mpr hn
  cases hrev : (Nat.digits 10 n).reverse with
  | nil => exact absurd (List.reverse_eq_nil_iff.mp hrev) hne
  | cons d t =>
    have hmem : d ∈ Nat.digits 10 n :=
      List.mem_reverse.mp (hrev ▸ List.mem_cons_self d t)
    have hlast : (Nat.digits 10 n).getLast? = some d := by
      rw [← List.head?_reverse, hrev, List.head?_cons]
    have hgl := Nat.getLast_digit_ne_zero 10 hn
    rw [List.getLast?_eq_getLast _ hne, Option.some.injEq] at hlast
    refine ⟨d, t.map (fun d => Char.ofNat (48 + d)), ?_, ?_, ?_⟩
    · exact Nat.digits_lt_base (by norm_num) hmem
    · exact hlast ▸ hgl
    · rw [natToDigitChars_eq, hrev, List.map_cons]

theorem natRepr_shape (m : ℕ) : ∃ c0 ds d,
    (natRepr m).data = c0 :: ds
    ∧ d < 10 ∧ c0 = Char.ofNat (48 + d)
    ∧ (∀ c ∈ c0 :: ds, Char.isDigit c = true)
    ∧ (ds = [] ∨ c0 ≠ '0')
    ∧ digitsToNat (c0 :: ds) = m := by
  by_cases hm : m = 0
  · subst hm
    exact ⟨'0', [], 0, rfl, by norm_num, rfl, by decide, Or.inl rfl, rfl⟩
  · obtain ⟨d, r, hd10, hd0, hchars⟩ := natToDigitChars_head m hm
    have hdata : (natRepr m).data = natToDigitChars m := by
      simp [natRepr, hm]
    refine ⟨Char.ofNat (48 + d), r, d, by rw [hdata, hchars], hd10, rfl, ?_, ?_, ?_⟩
    · intro c hc
      obtain ⟨d', hd', rfl⟩ := natToDigitChars_mem m c (hchars ▸ hc)
      exact (digitCharFacts d' hd').2.1
    · exact Or.inr (fun hc => hd0 ((digitCharFacts d hd10).2.2.2.2.2.2.2.2.2.2.2 hc))
    · rw [← hchars, digitsToNat_natToDigitChars]

theorem parseJsonNumber_digits (c0 : Char) (ds tail : List Char)
    (hdig : ∀ c ∈ c0 :: ds, Char.isDigit c = true)
    (hzero : ds = [] ∨ c0 ≠ '0')
    (hmin : c0 ≠ '-')
    (h : goodJsonTail tail) :
    parseJsonNumber ((c0 :: ds) ++ tail)
      = some (Value.int (digitsToNat (c0 :: ds) : ℤ), tail) := by
  obtain ⟨htw, hdw, hdot, he, hE, _, _⟩ := goodJsonTail_facts tail h
  have htake : List.takeWhile Char.isDigit (c0 :: (ds ++ tail)) = c0 :: ds := by
    rw [← List.cons_append, takeWhile_append_all _ _ hdig, htw, List.append_nil]
  have hdrop : List.dropWhile Char.isDigit (c0 :: (ds ++ tail)) = tail := by
    rw [← List.cons_append, dropWhile_append_all _ _ hdig, hdw]
  have hlz : ¬(1 < (c0 :: ds).length ∧ (c0 :: ds).head? = some '0') := by
    rcases hzero with rfl | hz
    · simp
    · simp [hz]
  simp only [parseJsonNumber, List.cons_append, List.head?_cons]
  have hcond : (some c0 = some '-') = False := by simp [hmin]
  simp only [hcond, if_false, htake, hdrop, List.isEmpty_cons,
    Bool.false_eq_true, if_neg hlz, if_neg hdot, jsonExpPart,
    if_neg (not_or.mpr ⟨he, hE⟩), Rat.num_natCast]

theorem parseJsonNumber_neg_digits (c0 : Char) (ds tail : List Char)
    (hdig : ∀ c ∈ c0 :: ds, Char.isDigit c = true)
    (hzero : ds = [] ∨ c0 ≠ '0')
    (h : goodJsonTail tail) :
    parseJsonNumber ('-' :: ((c0 :: ds) ++ tail))
      = some (Value.int (-(digitsToNat (c0 :: ds) : ℤ)), tail) := by
  obtain ⟨htw, hdw, hdot, he, hE, _, _⟩ := goodJsonTail_facts tail h
  have htake : List.takeWhile Char.isDigit (c0 :: (ds ++ tail)) = c0 :: ds := by
    rw [← List.cons_append, takeWhile_append_all _ _ hdig, htw, List.append_nil]
  have hdrop : List.dropWhile Char.isDigit (c0 :: (ds ++ tail)) = tail := by
    rw [← List.cons_append, dropWhile_append_all _ _ hdig, hdw]
  have hlz : ¬(1 < (c0 :: ds).length ∧ (c0 :: ds).head? = some '0') := by
    rcases hzero with rfl | hz
    · simp
    · simp [hz]
  simp only [parseJsonNumber, List.cons_append, List.head?_cons, if_pos rfl,
    List.tail_cons]
  have htt : ((true : Bool) = true) = True := by simp
  simp only [htake, hdrop, List.isEmpty_cons, Bool.false_eq_true, htt, if_true,
    if_neg hlz, if_neg hdot, jsonExpPart, if_neg (not_or.mpr ⟨he, hE⟩),
    Rat.neg_num, Rat.num_natCast]
  simp

theorem parseJsonNumber_intRepr (n : ℤ) (tail : List Char) (h : goodJsonTail tail) :
    parseJsonNumber ((intRepr n).data ++ tail) = some (Value.int n, tail) := by
  cases n with
  | ofNat m =>
    obtain ⟨c0, ds, d, hdata, hd10, hc0, hdig, hzero, hval⟩ := natRepr_shape m
    have hmin : c0 ≠ '-' := by
      rw [hc0]; exact (digitCharFacts d hd10).2.2.2.2.2.2.2.2.2.2.1
    rw [show intRepr (Int.ofNat m) = natRepr m from rfl, hdata,
      parseJsonNumber_digits c0 ds tail hdig hzero hmin h, hval]
    rfl
  | negSucc k =>
    obtain ⟨c0, ds, d, hdata, hd10, hc0, hdig, hzero, hval⟩ := natRepr_shape (k + 1)
    rw [show intRepr (Int.negSucc k) = "-" ++ natRepr (k + 1) from rfl,
      String.data_append, hdata, show ("-").data = ['-'] from rfl,
      List.singleton_append, List.cons_append,
      parseJsonNumber_neg_digits c0 ds tail hdig hzero h, hval]
    exact congrArg some (Prod.ext (congrArg Value.int (by rw [Int.negSucc_eq]; push_cast; ring)) rfl)

def dictKeysNodup : List (String × Value) → Bool
  | [] => true
  | p :: ps => ps.all (fun q => q.1 != p.1) && dictKeysNodup ps

mutual

def jsonSafeV : Value → Bool
  | .null => true
  | .bool _ => true
  | .int _ => true
  | .str _ => true
  | .float _ => false
  | .dtime _ _ _ _ _ _ => false
  | .list xs => jsonSafeL xs
  | .dict ps => dictKeysNodup ps && jsonSafeP ps

def jsonSafeL : List Value → Bool
  | [] => true
  | x :: xs => jsonSafeV x && jsonSafeL xs

def jsonSafeP : List (String × Value) → Bool
  | [] => true
  | p :: ps => jsonSafeV p.2 && jsonSafeP ps

end

mutual

def needV : Value → ℕ
  | .null => 1
  | .bool _ => 1
  | .int _ => 1
  | .str _ => 1
  | .float _ => 1
  | .dtime _ _ _ _ _ _ => 1
  | .list xs => needL xs + 1
  | .dict ps => needP ps + 1

def needL : List Value → ℕ
  | [] => 1
  | x :: xs => max (needV x) (needL xs) + 1

def needP : List (String × Value) → ℕ
  | [] => 1
  | p :: ps => max (needV p.2) (needP ps) + 1

end

theorem needV_pos (v : Value) : 1 ≤ needV v := by
  cases v <;> simp [needV]

theorem needL_pos (xs : List Value) : 1 ≤ needL xs := by
  cases xs <;> simp [needL]

theorem needP_pos (ps : List (String × Value)) : 1 ≤ needP ps := by
  cases ps <;> simp [needP]

theorem intRepr_shape (n : ℤ) : ∃ c0 rest, (intRepr n).data = c0 :: rest
    ∧ isJsonWs c0 = false ∧ c0 ≠ 'n' ∧ c0 ≠ 't' ∧ c0 ≠ 'f' ∧ c0 ≠ '"'
    ∧ c0 ≠ '[' ∧ c0 ≠ '\x7b' ∧ c0 ≠ ']' := by
  cases n with
  | ofNat m =>
    obtain ⟨c0, ds, d, hdata, hd10, hc0, _, _, _⟩ := natRepr_shape m
    subst hc0
    have hf := digitCharFacts d hd10
    exact ⟨_, ds, hdata, hf.2.2.1, hf.2.2.2.1, hf.2.2.2.2.1, hf.2.2.2.2.2.1,
      hf.2.2.2.2.2.2.1, hf.2.2.2.2.2.2.2.1, hf.2.2.2.2.2.2.2.2.1,
      hf.2.2.2.2.2.2.2.2.2.1⟩
  | negSucc k =>
    refine ⟨'-', (natRepr (k + 1)).data, ?_, by decide, by decide, by decide,
      by decide, by decide, by decide, by decide, by decide⟩
    rw [show intRepr (Int.negSucc k) = "-" ++ natRepr (k + 1) from rfl,
      String.data_append]
    rfl

theorem jsonDumpsElems_cons (sepI sepK : String) (x : Value) (xs : List Value) :
    jsonDumpsElems sepI sepK (x :: xs)
      = jsonDumpsVal sepI sepK x
        ++ (if xs.isEmpty then [] else sepI.data ++ jsonDumpsElems sepI sepK xs) := by
  cases xs with
  | nil => simp [jsonDumpsElems]
  | cons y ys => simp [jsonDumpsElems]

theorem jsonDumpsMembers_cons (sepI sepK : String) (k : String) (v : Value)
    (ps : List (String × Value)) :
    jsonDumpsMembers sepI sepK ((k, v) :: ps)
      = escapeJsonString k ++ sepK.data ++ jsonDumpsVal sepI sepK v
        ++ (if ps.isEmpty then []
            else sepI.data ++ jsonDumpsMembers sepI sepK ps) := by
  cases ps with
  | nil => simp [jsonDumpsMembers]
  | cons q qs => simp [jsonDumpsMembers, List.append_assoc]

theorem jsonDumpsVal_head (sepI sepK : String) (v : Value)
    (hv : jsonSafeV v = true) :
    ∃ c r, jsonDumpsVal sepI sepK v = c :: r ∧ isJsonWs c = false ∧ c ≠ ']' := by
  cases v with
  | null => exact ⟨'n', _, rfl, by decide, by decide⟩
  | bool b =>
    cases b
    · exact ⟨'f', _, rfl, by decide, by decide⟩
    · exact ⟨'t', _, rfl, by decide, by decide⟩
  | int n =>
    obtain ⟨c0, rest, hdata, hws, _, _, _, _, _, _, hrb⟩ := intRepr_shape n
    exact ⟨c0, rest, hdata, hws, hrb⟩
  | float q => simp [jsonSafeV] at hv
  | dtime y mo d h mi s => simp [jsonSafeV] at hv
  | str s => exact ⟨'"', _, rfl, by decide, by decide⟩
  | list xs => exact ⟨'[', _, rfl, by decide, by decide⟩
  | dict ps => exact ⟨'\x7b', _, rfl, by decide, by decide⟩

theorem parse_dumps (sepI sepK : String) (wsI wsK : List Char)
    (hsI : sepI.data = ',' :: wsI) (hwsI : ∀ c ∈ wsI, isJsonWs c = true)
    (hsK : sepK.data = ':' :: wsK) (hwsK : ∀ c ∈ wsK, isJsonWs c = true) :
    ∀ fuel : ℕ,
      (∀ v pre tail, jsonSafeV v = true → needV v ≤ fuel →
        (∀ c ∈ pre, isJsonWs c = true) → goodJsonTail tail →
        parseJsonVal fuel (pre ++ (jsonDumpsVal sepI sepK v ++ tail))
          = some (v, tail))
      ∧ (∀ xs pre acc tail, xs ≠ [] → jsonSafeL xs = true → needL xs ≤ fuel →
        (∀ c ∈ pre, isJsonWs c = true) →
        parseJsonElems fuel
          (pre ++ (jsonDumpsElems sepI sepK xs ++ (']' :: tail))) acc
          = some (.list (acc ++ xs), tail))
      ∧ (∀ ps pre acc tail, ps ≠ [] → dictKeysNodup ps = true →
        jsonSafeP ps = true → needP ps ≤ fuel →
        (∀ c ∈ pre, isJsonWs c = true) →
        (∀ p ∈ ps, dictGet acc p.1 = none) →
        parseJsonMembers fuel
          (pre ++ (jsonDumpsMembers sepI sepK ps ++ ('\x7d' :: tail))) acc
          = some (.dict (acc ++ ps), tail)) := by
  intro fuel
  induction fuel with
  | zero =>
    exact ⟨fun v _ _ _ hneed _ _ => absurd hneed (by have := needV_pos v; omega),
      fun xs _ _ _ _ _ hneed _ => absurd hneed (by have := needL_pos xs; omega),
      fun ps _ _ _ _ _ _ hneed _ _ =>
        absurd hneed (by have := needP_pos ps; omega)⟩
  | succ fuel ih =>
    obtain ⟨ihV, ihE, ihM⟩ := ih
    refine ⟨?_, ?_, ?_⟩
    · -- values
      intro v pre tail hsafe hneed hpre htail
      cases v with
      | null =>
        have hsw : skipWs (pre ++ (jsonDumpsVal sepI sepK .null ++ tail))
            = 'n' :: ('u' :: 'l' :: 'l' :: tail) := by
          rw [show jsonDumpsVal sepI sepK .null ++ tail
              = 'n' :: ('u' :: 'l' :: 'l' :: tail) from rfl,
            skipWs_ws_prefix _ _ hpre, skipWs_cons_of_not _ _ (by decide)]
        rw [parseJsonVal.eq_2]
        simp [hsw]
      | bool b =>
        cases b with
        | true =>
          have hsw : skipWs (pre ++ (jsonDumpsVal sepI sepK (.bool true) ++ tail))
              = 't' :: ('r' :: 'u' :: 'e' :: tail) := by
            rw [show jsonDumpsVal sepI sepK (.bool true) ++ tail
                = 't' :: ('r' :: 'u' :: 'e' :: tail) from rfl,
              skipWs_ws_prefix _ _ hpre, skipWs_cons_of_not _ _ (by decide)]
          rw [parseJsonVal.eq_2]
          simp [hsw]
        | false =>
          have hsw : skipWs (pre ++ (jsonDumpsVal sepI sepK (.bool false) ++ tail))
              = 'f' :: ('a' :: 'l' :: 's' :: 'e' :: tail) := by
            rw [show jsonDumpsVal sepI sepK (.bool false) ++ tail
                = 'f' :: ('a' :: 'l' :: 's' :: 'e' :: tail) from rfl,
              skipWs_ws_prefix _ _ hpre, skipWs_cons_of_not _ _ (by decide)]
          rw [parseJsonVal.eq_2]
          simp [hsw]
      | int n =>
        obtain ⟨c0, rest, hdata, hws0, hn', ht', hf', hq', hlb', hob', _⟩ :=
          intRepr_shape n
        have hsw : skipWs (pre ++ (jsonDumpsVal sepI sepK (.int n) ++ tail))
            = c0 :: (rest ++ tail) := by
          rw [show jsonDumpsVal sepI sepK (.int n) = (intRepr n).data from rfl,
            hdata, List.cons_append, skipWs_ws_prefix _ _ hpre,
            skipWs_cons_of_not _ _ hws0]
        rw [parseJsonVal.eq_2]
        simp only [hsw, if_neg hn', if_neg ht', if_neg hf', if_neg hq',
          if_neg hlb', if_neg hob']
        rw [← List.cons_append, ← hdata, parseJsonNumber_intRepr n tail htail]
      | float q => simp [jsonSafeV] at hsafe
      | dtime y mo d h mi s => simp [jsonSafeV] at hsafe
      | str s =>
        have hsw : skipWs (pre ++ (jsonDumpsVal sepI sepK (.str s) ++ tail))
            = '"' :: s.data.foldr (fun c acc => escapeJsonChar c ++ acc)
                ('"' :: tail) := by
          rw [show jsonDumpsVal sepI sepK (.str s) = escapeJsonString s from rfl,
            escapeJsonString_append, skipWs_ws_prefix _ _ hpre,
            skipWs_cons_of_not _ _ (by decide)]
        rw [parseJsonVal.eq_2]
        simp [hsw, parseJsonStringBody_escFold]
      | list xs =>
        cases xs with
        | nil =>
          have hsw : skipWs (pre ++ (jsonDumpsVal sepI sepK (.list []) ++ tail))
              = '[' :: (']' :: tail) := by
            rw [show jsonDumpsVal sepI sepK (.list []) ++ tail
                = '[' :: (']' :: tail) from rfl,
              skipWs_ws_prefix _ _ hpre, skipWs_cons_of_not _ _ (by decide)]
          rw [parseJsonVal.eq_2]
          simp [hsw, skipWs_cons_of_not (']') tail (by decide)]
        | cons x xs' =>
          have hsx : jsonSafeV x = true ∧ jsonSafeL xs' = true := by
            simpa [jsonSafeV, jsonSafeL, Bool.and_eq_true] using hsafe
          have hneed' : needL (x :: xs') ≤ fuel := by
            simp only [needV] at hneed; omega
          obtain ⟨c1, r1, hx1, hws1, hne1⟩ := jsonDumpsVal_head sepI sepK x hsx.1
          have hEd : jsonDumpsElems sepI sepK (x :: xs') ++ (']' :: tail)
              = c1 :: (r1 ++ ((if xs'.isEmpty then []
                  else sepI.data ++ jsonDumpsElems sepI sepK xs')
                    ++ (']' :: tail))) := by
            rw [jsonDumpsElems_cons, hx1]
            simp [List.append_assoc]
          have hsw : skipWs (pre ++ (jsonDumpsVal sepI sepK (.list (x :: xs'))
                ++ tail))
              = '[' :: (jsonDumpsElems sepI sepK (x :: xs') ++ (']' :: tail)) := by
            rw [show jsonDumpsVal sepI sepK (.list (x :: xs')) ++ tail
                = '[' :: ((jsonDumpsElems sepI sepK (x :: xs') ++ [']']) ++ tail)
                  from rfl,
              List.append_assoc, List.singleton_append,
              skipWs_ws_prefix _ _ hpre, skipWs_cons_of_not _ _ (by decide)]
          have hskip2 : skipWs (jsonDumpsElems sepI sepK (x :: xs')
                ++ (']' :: tail))
              = jsonDumpsElems sepI sepK (x :: xs') ++ (']' :: tail) := by
            rw [hEd, skipWs_cons_of_not _ _ hws1]
          have hhd : (jsonDumpsElems sepI sepK (x :: xs')
                ++ (']' :: tail)).head? = some c1 := by
            rw [hEd, List.head?_cons]
          have hsl : jsonSafeL (x :: xs') = true := by
            simp [jsonSafeL, hsx.1, hsx.2]
          rw [parseJsonVal.eq_2]
          simp only [hsw, hskip2, hhd]
          simp only [if_true,
            if_neg (show ¬(some c1 = some ']') from by simp [hne1])]
          rw [← List.nil_append (jsonDumpsElems sepI sepK (x :: xs')
            ++ (']' :: tail)),
            ihE (x :: xs') [] [] tail (by simp) hsl hneed' (by simp)]
          simp
      | dict ps =>
        cases ps with
        | nil =>
          have hsw : skipWs (pre ++ (jsonDumpsVal sepI sepK (.dict []) ++ tail))
              = '\x7b' :: ('\x7d' :: tail) := by
            rw [show jsonDumpsVal sepI sepK (.dict []) ++ tail
                = '\x7b' :: ('\x7d' :: tail) from rfl,
              skipWs_ws_prefix _ _ hpre, skipWs_cons_of_not _ _ (by decide)]
          rw [parseJsonVal.eq_2]
          simp [hsw, skipWs_cons_of_not ('\x7d') tail (by decide)]
        | cons p ps' =>
          obtain ⟨k, v⟩ := p
          have hsd : dictKeysNodup ((k, v) :: ps') = true
              ∧ jsonSafeP ((k, v) :: ps') = true := by
            simpa [jsonSafeV, Bool.and_eq_true] using hsafe
          have hneed' : needP ((k, v) :: ps') ≤ fuel := by
            simp only [needV] at hneed; omega
          have hMd : jsonDumpsMembers sepI sepK ((k, v) :: ps') ++ ('\x7d' :: tail)
              = '"' :: (k.data.foldr (fun c acc => escapeJsonChar c ++ acc)
                  ('"' :: (sepK.data ++ (jsonDumpsVal sepI sepK v
                    ++ ((if ps'.isEmpty then []
                        else sepI.data ++ jsonDumpsMembers sepI sepK ps')
                      ++ ('\x7d' :: tail)))))) := by
            rw [jsonDumpsMembers_cons]
            simp only [List.append_assoc]
            rw [escapeJsonString_append]
          have hsw : skipWs (pre ++ (jsonDumpsVal sepI sepK (.dict ((k, v) :: ps'))
                ++ tail))
              = '\x7b' :: (jsonDumpsMembers sepI sepK ((k, v) :: ps')
                  ++ ('\x7d' :: tail)) := by
            rw [show jsonDumpsVal sepI sepK (.dict ((k, v) :: ps')) ++ tail
                = '\x7b' :: ((jsonDumpsMembers sepI sepK ((k, v) :: ps')
                    ++ ['\x7d']) ++ tail) from rfl,
              List.append_assoc, List.singleton_append,
              skipWs_ws_prefix _ _ hpre, skipWs_cons_of_not _ _ (by decide)]
          have hskip2 : skipWs (jsonDumpsMembers sepI sepK ((k, v) :: ps')
                ++ ('\x7d' :: tail))
              = jsonDumpsMembers sepI sepK ((k, v) :: ps') ++ ('\x7d' :: tail) := by
            rw [hMd, skipWs_cons_of_not _ _ (by decide)]
          have hhd : (jsonDumpsMembers sepI sepK ((k, v) :: ps')
                ++ ('\x7d' :: tail)).head? = some '"' := by
            rw [hMd, List.head?_cons]
          rw [parseJsonVal.eq_2]
          simp only [hsw, hskip2, hhd]
          simp only [if_true,
            if_neg (show ¬(some ('"') = some ('\x7d')) from by decide)]
          rw [← List.nil_append (jsonDumpsMembers sepI sepK ((k, v) :: ps')
              ++ ('\x7d' :: tail)),
            ihM ((k, v) :: ps') [] [] tail (by simp) hsd.1 hsd.2 hneed'
              (by simp) (by simp [dictGet])]
          simp
    · -- array elements
      intro xs pre acc tail hne hsafe hneed hpre
      cases xs with
      | nil => exact absurd rfl hne
      | cons x xs' =>
        have hsx : jsonSafeV x = true ∧ jsonSafeL xs' = true := by
          simpa [jsonSafeL, Bool.and_eq_true] using hsafe
        have hneedx : needV x ≤ fuel := by
          simp only [needL] at hneed; omega
        have hneedxs : needL xs' ≤ fuel := by
          simp only [needL] at hneed; omega
        cases xs' with
        | nil =>
          have hcs : jsonDumpsElems sepI sepK [x] ++ (']' :: tail)
              = jsonDumpsVal sepI sepK x ++ (']' :: tail) := by
            rw [jsonDumpsElems_cons]; simp
          rw [parseJsonElems.eq_2, hcs,
            ihV x pre (']' :: tail) hsx.1 hneedx hpre
              (goodJsonTail_cons _ _ (Or.inr (Or.inl rfl)))]
          simp [skipWs_cons_of_not (']') tail (by decide)]
        | cons y ys =>
          have hdd : jsonDumpsElems sepI sepK (x :: y :: ys) ++ (']' :: tail)
              = jsonDumpsVal sepI sepK x
                ++ (sepI.data ++ (jsonDumpsElems sepI sepK (y :: ys)
                  ++ (']' :: tail))) := by
            rw [jsonDumpsElems_cons]
            simp [List.append_assoc]
          have hgt : goodJsonTail (sepI.data
              ++ (jsonDumpsElems sepI sepK (y :: ys) ++ (']' :: tail))) := by
            rw [hsI]; exact goodJsonTail_cons _ _ (Or.inl rfl)
          rw [parseJsonElems.eq_2, hdd, ihV x pre _ hsx.1 hneedx hpre hgt]
          have h1 : skipWs (sepI.data ++ (jsonDumpsElems sepI sepK (y :: ys)
                ++ (']' :: tail)))
              = ',' :: (wsI ++ (jsonDumpsElems sepI sepK (y :: ys)
                  ++ (']' :: tail))) := by
            rw [hsI, List.cons_append, skipWs_cons_of_not _ _ (by decide)]
          simp only [Option.bind_eq_bind, Option.some_bind, h1,
            List.head?_cons, List.tail_cons, if_true,
            if_pos (rfl : some (',') = some (','))]
          rw [ihE (y :: ys) wsI (acc ++ [x]) tail (by simp) hsx.2 hneedxs hwsI]
          simp
    · -- object members
      intro ps pre acc tail hne hnodup hsafe hneed hpre hacc
      cases ps with
      | nil => exact absurd rfl hne
      | cons p ps' =>
        obtain ⟨k, v⟩ := p
        have hsv : jsonSafeV v = true ∧ jsonSafeP ps' = true := by
          simpa [jsonSafeP, Bool.and_eq_true] using hsafe
        have hnd : (∀ q ∈ ps', (q.1 != k) = true) ∧ dictKeysNodup ps' = true := by
          simpa [dictKeysNodup, Bool.and_eq_true, List.all_eq_true] using hnodup
        have hneedv : needV v ≤ fuel := by
          simp only [needP] at hneed; omega
        have hneedps : needP ps' ≤ fuel := by
          simp only [needP] at hneed; omega
        have hgetk : dictGet acc k = none := hacc (k, v) (by simp)
        have hset : dictSet acc k v = acc ++ [(k, v)] :=
          dictSet_eq_append acc k v hgetk
        have hMd : jsonDumpsMembers sepI sepK ((k, v) :: ps') ++ ('\x7d' :: tail)
            = escapeJsonString k ++ (sepK.data ++ (jsonDumpsVal sepI sepK v
                ++ ((if ps'.isEmpty then []
                    else sepI.data ++ jsonDumpsMembers sepI sepK ps')
                  ++ ('\x7d' :: tail)))) := by
          rw [jsonDumpsMembers_cons]
          simp [List.append_assoc]
        have hsw : skipWs (pre ++ (jsonDumpsMembers sepI sepK ((k, v) :: ps')
              ++ ('\x7d' :: tail)))
            = '"' :: (k.data.foldr (fun c acc => escapeJsonChar c ++ acc)
                ('"' :: (sepK.data ++ (jsonDumpsVal sepI sepK v
                  ++ ((if ps'.isEmpty then []
                      else sepI.data ++ jsonDumpsMembers sepI sepK ps')
                    ++ ('\x7d' :: tail)))))) := by
          rw [hMd, escapeJsonString_append, skipWs_ws_prefix _ _ hpre,
            skipWs_cons_of_not _ _ (by decide)]
        have hgt : goodJsonTail ((if ps'.isEmpty then []
              else sepI.data ++ jsonDumpsMembers sepI sepK ps')
            ++ ('\x7d' :: tail)) := by
          cases ps' with
          | nil => exact goodJsonTail_cons _ _ (Or.inr (Or.inr rfl))
          | cons q qs =>
            rw [if_neg (by simp), hsI]
            exact goodJsonTail_cons _ _ (Or.inl rfl)
        have h2 : skipWs (sepK.data ++ (jsonDumpsVal sepI sepK v
              ++ ((if ps'.isEmpty then []
                  else sepI.data ++ jsonDumpsMembers sepI sepK ps')
                ++ ('\x7d' :: tail))))
            = ':' :: (wsK ++ (jsonDumpsVal sepI sepK v
                ++ ((if ps'.isEmpty then []
                    else sepI.data ++ jsonDumpsMembers sepI sepK ps')
                  ++ ('\x7d' :: tail)))) := by
          rw [hsK, List.cons_append, skipWs_cons_of_not _ _ (by decide)]
        rw [parseJsonMembers.eq_2]
        simp only [hsw, if_true, parseJsonStringBody_escFold,
          Option.bind_eq_bind, Option.some_bind, h2,
          List.head?_cons, List.tail_cons]
        rw [ihV v wsK _ hsv.1 hneedv hwsK hgt]
        simp only [Option.bind_eq_bind, Option.some_bind]
        cases ps' with
        | nil =>
          have h4 : ((if ([] : List (String × Value)).isEmpty then []
                else sepI.data ++ jsonDumpsMembers sepI sepK [])
              ++ ('\x7d' :: tail)) = '\x7d' :: tail := by simp
          simp only [h4, skipWs_cons_of_not ('\x7d') tail (by decide)]
          simp [hset]
        | cons q qs =>
          have h3 : skipWs ((if (q :: qs).isEmpty then []
                else sepI.data ++ jsonDumpsMembers sepI sepK (q :: qs))
              ++ ('\x7d' :: tail))
              = ',' :: (wsI ++ (jsonDumpsMembers sepI sepK (q :: qs)
                  ++ ('\x7d' :: tail))) := by
            rw [if_neg (by simp), hsI]
            simp only [List.cons_append, List.append_assoc]
            rw [skipWs_cons_of_not _ _ (by decide)]
          simp only [h3, List.head?_cons, List.tail_cons, if_pos rfl]
          rw [hset, ihM (q :: qs) wsI (acc ++ [(k, v)]) tail (by simp)
            hnd.2 hsv.2 hneedps hwsI
            (fun p hp => dictGet_append_none acc p.1 (k, v)
              (hacc p (List.mem_cons_of_mem _ hp))
              (fun hkp => by
                have := hnd.1 p hp
                simp [bne_iff_ne] at this
                exact this hkp.symm))]
          simp

theorem dumpsVal_length_pos (sepI sepK : String) (v : Value)
    (hv : jsonSafeV v = true) : 1 ≤ (jsonDumpsVal sepI sepK v).length := by
  obtain ⟨c, r, h, _, _⟩ := jsonDumpsVal_head sepI sepK v hv
  simp [h]

theorem dumpsElems_length_pos (sepI sepK : String) (x : Value) (xs : List Value)
    (hx : jsonSafeV x = true) :
    1 ≤ (jsonDumpsElems sepI sepK (x :: xs)).length := by
  obtain ⟨c, r, hd, _, _⟩ := jsonDumpsVal_head sepI sepK x hx
  rw [jsonDumpsElems_cons, hd]
  simp

theorem dumpsMembers_length_pos (sepI sepK : String) (k : String) (v : Value)
    (ps : List (String × Value)) :
    1 ≤ (jsonDumpsMembers sepI sepK ((k, v) :: ps)).length := by
  rw [jsonDumpsMembers_cons]
  simp [escapeJsonString]

mutual

theorem needV_le (sepI sepK : String) : ∀ v : Value, jsonSafeV v = true →
    needV v ≤ (jsonDumpsVal sepI sepK v).length + 1
  | .null, _ => by simp [needV]
  | .bool b, _ => by cases b <;> simp [needV]
  | .int n, _ => by simp [needV]
  | .str s, _ => by simp [needV]
  | .float q, h => by simp [jsonSafeV] at h
  | .dtime y mo d hh mi s, h => by simp [jsonSafeV] at h
  | .list xs, h => by
    cases xs with
    | nil => simp [needV, needL, jsonDumpsVal]
    | cons x xs' =>
      have hL := needL_le sepI sepK (x :: xs')
        (by simpa [jsonSafeV] using h) (by simp)
      have hlen : (jsonDumpsVal sepI sepK (.list (x :: xs'))).length
          = (jsonDumpsElems sepI sepK (x :: xs')).length + 2 := by
        show ('[' :: (jsonDumpsElems sepI sepK (x :: xs') ++ [']'])).length = _
        simp
      simp only [needV]
      omega
  | .dict ps, h => by
    cases ps with
    | nil => simp [needV, needP, jsonDumpsVal]
    | cons p ps' =>
      obtain ⟨k, v⟩ := p
      have hsd : dictKeysNodup ((k, v) :: ps') = true
          ∧ jsonSafeP ((k, v) :: ps') = true := by
        simpa [jsonSafeV, Bool.and_eq_true] using h
      have hP := needP_le sepI sepK ((k, v) :: ps') hsd.2 (by simp)
      have hlen : (jsonDumpsVal sepI sepK (.dict ((k, v) :: ps'))).length
          = (jsonDumpsMembers sepI sepK ((k, v) :: ps')).length + 2 := by
        show ('\x7b' :: (jsonDumpsMembers sepI sepK ((k, v) :: ps')
          ++ ['\x7d'])).length = _
        simp
      simp only [needV]
      omega

theorem needL_le (sepI sepK : String) : ∀ xs : List Value,
    jsonSafeL xs = true → xs ≠ [] →
    needL xs ≤ (jsonDumpsElems sepI sepK xs).length + 2
  | [], _, hne => absurd rfl hne
  | x :: xs', h, _ => by
    have hs : jsonSafeV x = true ∧ jsonSafeL xs' = true := by
      simpa [jsonSafeL, Bool.and_eq_true] using h
    have hV := needV_le sepI sepK x hs.1
    have hvpos := dumpsVal_length_pos sepI sepK x hs.1
    cases xs' with
    | nil =>
      have h1 : needL [x] = max (needV x) 1 + 1 := by simp [needL]
      have h2 : (jsonDumpsElems sepI sepK [x]).length
          = (jsonDumpsVal sepI sepK x).length := by
        rw [jsonDumpsElems_cons]
        simp
      omega
    | cons y ys =>
      have hL := needL_le sepI sepK (y :: ys) hs.2 (by simp)
      have hsy : jsonSafeV y = true ∧ jsonSafeL ys = true := by
        simpa [jsonSafeL, Bool.and_eq_true] using hs.2
      have hpos2 := dumpsElems_length_pos sepI sepK y ys hsy.1
      have h1 : needL (x :: y :: ys) = max (needV x) (needL (y :: ys)) + 1 := by
        simp [needL]
      have h2 : (jsonDumpsElems sepI sepK (x :: y :: ys)).length
          = (jsonDumpsVal sepI sepK x).length + (sepI.data.length
            + (jsonDumpsElems sepI sepK (y :: ys)).length) := by
        rw [jsonDumpsElems_cons]
        simp
      omega

theorem needP_le (sepI sepK : String) : ∀ ps : List (String × Value),
    jsonSafeP ps = true → ps ≠ [] →
    needP ps ≤ (jsonDumpsMembers sepI sepK ps).length + 2
  | [], _, hne => absurd rfl hne
  | (k, v) :: ps', h, _ => by
    have hs : jsonSafeV v = true ∧ jsonSafeP ps' = true := by
      simpa [jsonSafeP, Bool.and_eq_true] using h
    have hV := needV_le sepI sepK v hs.1
    have hvpos := dumpsVal_length_pos sepI sepK v hs.1
    cases ps' with
    | nil =>
      have h1 : needP [(k, v)] = max (needV v) 1 + 1 := by simp [needP]
      have h2 : (jsonDumpsMembers sepI sepK [(k, v)]).length
          = (escapeJsonString k).length + sepK.data.length
            + (jsonDumpsVal sepI sepK v).length := by
        rw [jsonDumpsMembers_cons]
        simp
        omega
      omega
    | cons q qs =>
      obtain ⟨k2, v2⟩ := q
      have hP := needP_le sepI sepK ((k2, v2) :: qs) hs.2 (by simp)
      have hpos2 := dumpsMembers_length_pos sepI sepK k2 v2 qs
      have h1 : needP ((k, v) :: (k2, v2) :: qs)
          = max (needV v) (needP ((k2, v2) :: qs)) + 1 := by simp [needP]
      have h2 : (jsonDumpsMembers sepI sepK ((k, v) :: (k2, v2) :: qs)).length
          = (escapeJsonString k).length + sepK.data.length
            + (jsonDumpsVal sepI sepK v).length + (sepI.data.length
              + (jsonDumpsMembers sepI sepK ((k2, v2) :: qs)).length) := by
        rw [jsonDumpsMembers_cons]
        simp
        omega
      omega

end

theorem jsonParse_dumps (sepI sepK : String) (wsI wsK : List Char)
    (hsI : sepI.data = ',' :: wsI) (hwsI : ∀ c ∈ wsI, isJsonWs c = true)
    (hsK : sepK.data = ':' :: wsK) (hwsK : ∀ c ∈ wsK, isJsonWs c = true)
    (v : Value) (hv : jsonSafeV v = true) :
    jsonParse ⟨jsonDumpsVal sepI sepK v⟩ = some v := by
  have hlen := needV_le sepI sepK v hv
  have hmain := (parse_dumps sepI sepK wsI wsK hsI hwsI hsK hwsK
      ((jsonDumpsVal sepI sepK v).length + 1)).1 v [] [] hv (by omega)
      (by simp) goodJsonTail_nil
  simp only [List.nil_append, List.append_nil] at hmain
  unfold jsonParse
  rw [show (⟨jsonDumpsVal sepI sepK v⟩ : String).data
      = jsonDumpsVal sepI sepK v from rfl, hmain]
  simp [skipWs]

theorem jsonParse_dumps_jsonl (v : Value) (hv : jsonSafeV v = true) :
    jsonParse ⟨jsonDumpsVal "," ":" v⟩ = some v :=
  jsonParse_dumps "," ":" [] [] rfl (by simp) rfl (by simp) v hv

theorem jsonParse_dumps_csv (v : Value) (hv : jsonSafeV v = true) :
    jsonParse ⟨jsonDumpsVal ", " ": " v⟩ = some v :=
  jsonParse_dumps ", " ": " [' '] [' '] rfl (by decide) rfl (by decide) v hv

theorem pyStripChars_brace (M : List Char) :
    pyStripChars ('\x7b' :: (M ++ ['\x7d'])) = '\x7b' :: (M ++ ['\x7d']) := by
  have h1 : isPySpace '\x7b' = false := by decide
  have h2 : isPySpace '\x7d' = false := by decide
  have e1 : List.dropWhile isPySpace ('\x7b' :: (M ++ ['\x7d']))
      = '\x7b' :: (M ++ ['\x7d']) := by
    simp [List.dropWhile_cons, h1]
  have e2 : ('\x7b' :: (M ++ ['\x7d'])).reverse
      = '\x7d' :: (M.reverse ++ ['\x7b']) := by
    simp
  have e3 : List.dropWhile isPySpace ('\x7d' :: (M.reverse ++ ['\x7b']))
      = '\x7d' :: (M.reverse ++ ['\x7b']) := by
    simp [List.dropWhile_cons, h2]
  rw [pyStripChars, e1, e2, e3]
  simp

theorem pyStrip_brace (M : List Char) :
    pyStrip ⟨'\x7b' :: (M ++ ['\x7d'])⟩ = ⟨'\x7b' :: (M ++ ['\x7d'])⟩ := by
  show (⟨pyStripChars ('\x7b' :: (M ++ ['\x7d']))⟩ : String) = _
  rw [pyStripChars_brace]

theorem jsonlLoadLines_dumps (items : List Item)
    (hsafe : ∀ it ∈ items, jsonSafeV (.dict it) = true) :
    ∀ acc, jsonlLoadLines none
        (items.map (fun it => (⟨jsonDumpsVal "," ":" (.dict it)⟩ : String))) acc
      = acc ++ items.map Value.dict := by
  induction items with
  | nil => intro acc; simp [jsonlLoadLines]
  | cons it rest ih =>
    intro acc
    have hsit := hsafe it (by simp)
    have hshape : jsonDumpsVal "," ":" (.dict it)
        = '\x7b' :: (jsonDumpsMembers "," ":" it ++ ['\x7d']) := rfl
    have hstrip : pyStrip ⟨jsonDumpsVal "," ":" (.dict it)⟩
        = ⟨jsonDumpsVal "," ":" (.dict it)⟩ := by
      rw [hshape]
      exact pyStrip_brace _
    have hnemp : (⟨jsonDumpsVal "," ":" (.dict it)⟩ : String) ≠ "" := by
      intro hcontra
      have := congrArg String.data hcontra
      rw [hshape] at this
      simp at this
    have hne : (pyStrip ⟨jsonDumpsVal "," ":" (.dict it)⟩ == "") = false := by
      rw [hstrip]
      exact beq_eq_false_iff_ne.mpr hnemp
    have hparse : jsonParse (pyStrip ⟨jsonDumpsVal "," ":" (.dict it)⟩)
        = some (.dict it) := by
      rw [hstrip]
      exact jsonParse_dumps_jsonl (.dict it) hsit
    simp only [List.map_cons, jsonlLoadLines, hne, hparse, Bool.false_eq_true,
      if_false, pyLimitReached]
    rw [ih (fun x hx => hsafe x (by simp [hx])) (acc ++ [Value.dict it])]
    simp

theorem jsonlSaveLoad (cfg : JsonlAdapterCfg) (items : List Item)
    (hsafe : ∀ it ∈ items, jsonSafeV (.dict it) = true) :
    jsonlLoad (jsonlSave cfg none items).2 none = items.map Value.dict := by
  cases items with
  | nil => rfl
  | cons it rest =>
    have hprior : (if (cfg.mode == "w") = true then ([] : List String)
        else (none : Option (List String)).getD []) = [] := by
      cases h : cfg.mode == "w" <;> simp
    simp only [jsonlSave, List.isEmpty_cons, Bool.false_eq_true, if_false,
      hprior, List.nil_append, jsonlLoad]
    exact jsonlLoadLines_dumps (it :: rest) hsafe []

theorem csvLoadRows_no_limit (header : List String) :
    ∀ (rows : List (List String)) (acc : List Item),
      csvLoadRows header none rows acc
        = acc ++ rows.map (fun row =>
            (header.zip row).map (fun p => (p.1, decodeCsvCell p.2)))
  | [], acc => by simp [csvLoadRows]
  | row :: rest, acc => by
    simp only [csvLoadRows, pyLimitReached, Bool.false_eq_true, if_false,
      List.map_cons]
    rw [csvLoadRows_no_limit header rest]
    simp

theorem zip_map_self {β : Type _} (l : List String) (e : String → β) :
    l.zip (l.map e) = l.map (fun f => (f, e f)) := by
  conv_lhs => rw [show l.zip (l.map e) = (l.map id).zip (l.map e) from by
    rw [List.map_id]]
  rw [List.zip_map']
  simp

theorem csvSaveLoad (items : List Item) :
    csvLoad (csvSave {} none items).2 none
      = items.map (fun it => (sortedFieldnames items).map
          (fun f => (f, decodeCsvCell (encodeCsvCell (dictGet it f))))) := by
  cases items with
  | nil => rfl
  | cons it rest =>
    have hsave : (csvSave {} none (it :: rest)).2
        = some (sortedFieldnames (it :: rest)
            :: (it :: rest).map (fun x => (sortedFieldnames (it :: rest)).map
              (fun f => encodeCsvCell (dictGet x f)))) := rfl
    have hload : csvLoad (some (sortedFieldnames (it :: rest)
          :: (it :: rest).map (fun x => (sortedFieldnames (it :: rest)).map
            (fun f => encodeCsvCell (dictGet x f))))) none
        = csvLoadRows (sortedFieldnames (it :: rest)) none
            ((it :: rest).map (fun x => (sortedFieldnames (it :: rest)).map
              (fun f => encodeCsvCell (dictGet x f)))) [] := rfl
    rw [hsave, hload, csvLoadRows_no_limit]
    simp only [List.nil_append, List.map_map]
    refine List.map_congr_left ?_
    intro x _
    simp only [Function.comp_apply, zip_map_self, List.map_map]
    rfl

theorem decode_encode_str (s : String)
    (h1 : s.data.head? ≠ some '\x7b') (h2 : s.data.head? ≠ some '[') :
    decodeCsvCell (encodeCsvCell (some (.str s))) = .str s := by
  have he : encodeCsvCell (some (.str s)) = s := rfl
  rw [he]
  unfold decodeCsvCell
  rw [if_neg (fun h => h.2.elim h1 h2)]

theorem decode_encode_int (n : ℤ) :
    decodeCsvCell (encodeCsvCell (some (.int n))) = .str (intRepr n) := by
  have he : encodeCsvCell (some (.int n)) = intRepr n := rfl
  obtain ⟨c0, rest, hdata, hws, hn, ht, hf, hq, hlb, hob, hrb⟩ := intRepr_shape n
  rw [he]
  unfold decodeCsvCell
  rw [if_neg (fun h => h.2.elim
    (fun hc => hob (by rw [hdata] at hc; simpa using hc))
    (fun hc => hlb (by rw [hdata] at hc; simpa using hc)))]

theorem decode_encode_dict (ps : List (String × Value))
    (h : jsonSafeV (.dict ps) = true) :
    decodeCsvCell (encodeCsvCell (some (.dict ps))) = .dict ps := by
  have he : encodeCsvCell (some (.dict ps))
      = ⟨jsonDumpsVal ", " ": " (.dict ps)⟩ := rfl
  have hdata : (⟨jsonDumpsVal ", " ": " (.dict ps)⟩ : String).data
      = '\x7b' :: (jsonDumpsMembers ", " ": " ps ++ ['\x7d']) := rfl
  have hne : (⟨jsonDumpsVal ", " ": " (.dict ps)⟩ : String) ≠ "" := by
    intro hc
    have := congrArg String.data hc
    rw [hdata] at this
    simp at this
  have hhd : (⟨jsonDumpsVal ", " ": " (.dict ps)⟩ : String).data.head?
      = some '\x7b' := by
    rw [hdata, List.head?_cons]
  rw [he]
  unfold decodeCsvCell
  rw [if_pos ⟨hne, Or.inl hhd⟩, jsonParse_dumps_csv _ h]

theorem decode_encode_list (xs : List Value)
    (h : jsonSafeV (.list xs) = true) :
    decodeCsvCell (encodeCsvCell (some (.list xs))) = .list xs := by
  have he : encodeCsvCell (some (.list xs))
      = ⟨jsonDumpsVal ", " ": " (.list xs)⟩ := rfl
  have hdata : (⟨jsonDumpsVal ", " ": " (.list xs)⟩ : String).data
      = '[' :: (jsonDumpsElems ", " ": " xs ++ [']']) := rfl
  have hne : (⟨jsonDumpsVal ", " ": " (.list xs)⟩ : String) ≠ "" := by
    intro hc
    have := congrArg String.data hc
    rw [hdata] at this
    simp at this
  have hhd : (⟨jsonDumpsVal ", " ": " (.list xs)⟩ : String).data.head?
      = some '[' := by
    rw [hdata, List.head?_cons]
  rw [he]
  unfold decodeCsvCell
  rw [if_pos ⟨hne, Or.inr hhd⟩, jsonParse_dumps_csv _ h]

/-- C6 (amended): storage round-trips recover data only where the encodings
are faithful. (1) JSONL: save-then-load returns every item exactly (scalars
and structured fields alike) provided the items hold JSON-representable
values — no floats or datetimes in our model, and nested dicts with
pairwise-distinct keys. (2) CSV: save-then-load equals a per-item
re-encoding of every cell over the sorted union of the batch's field names;
in particular (3) string fields not starting with a brace/bracket survive
intact, (4)/(5) structured dict/list fields decode back to equal values,
but (6) an int field comes back as its decimal string — CSV does not keep
scalar fields intact, refuting the unqualified claim. -/
theorem C6_storage_round_trip :
    (∀ (cfg : JsonlAdapterCfg) (items : List Item),
      (∀ it ∈ items, jsonSafeV (.dict it) = true) →
      jsonlLoad (jsonlSave cfg none items).2 none = items.map Value.dict)
    ∧ (∀ items : List Item,
      csvLoad (csvSave {} none items).2 none
        = items.map (fun it => (sortedFieldnames items).map
            (fun f => (f, decodeCsvCell (encodeCsvCell (dictGet it f))))))
    ∧ (∀ s : String, s.data.head? ≠ some '\x7b' → s.data.head? ≠ some '[' →
      decodeCsvCell (encodeCsvCell (some (.str s))) = .str s)
    ∧ (∀ ps : List (String × Value), jsonSafeV (.dict ps) = true →
      decodeCsvCell (encodeCsvCell (some (.dict ps))) = .dict ps)
    ∧ (∀ xs : List Value, jsonSafeV (.list xs) = true →
      decodeCsvCell (encodeCsvCell (some (.list xs))) = .list xs)
    ∧ (∀ n : ℤ,
      decodeCsvCell (encodeCsvCell (some (.int n))) = .str (intRepr n)) :=
  ⟨jsonlSaveLoad, csvSaveLoad, decode_encode_str, decode_encode_dict,
    decode_encode_list, decode_encode_int⟩

/-- C6 witness: the amended round-trip theorem evaluated on concrete data —
a JSONL batch with an int, a string and distinct keys comes back exactly;
CSV cells for a plain string, a dict, a list and an int behave as stated. -/
theorem C6_storage_round_trip_witness :
    jsonlLoad (jsonlSave {} none
        [[("a", Value.int 1), ("b", Value.str "x")]]).2 none
      = [Value.dict [("a", Value.int 1), ("b", Value.str "x")]]
    ∧ decodeCsvCell (encodeCsvCell (some (Value.str "hello")))
      = Value.str "hello"
    ∧ decodeCsvCell (encodeCsvCell (some (Value.dict [("k", Value.bool true)])))
      = Value.dict [("k", Value.bool true)]
    ∧ decodeCsvCell (encodeCsvCell (some (Value.list [Value.int 1, Value.null])))
      = Value.list [Value.int 1, Value.null]
    ∧ decodeCsvCell (encodeCsvCell (some (Value.int 30)))
      = Value.str (intRepr 30) :=
  ⟨C6_storage_round_trip.1 {} [[("a", Value.int 1), ("b", Value.str "x")]]
      (by decide),
   C6_storage_round_trip.2.2.1 "hello" (by decide) (by decide),
   C6_storage_round_trip.2.2.2.1 [("k", Value.bool true)] (by decide),
   C6_storage_round_trip.2.2.2.2.1 [Value.int 1, Value.null] (by decide),
   C6_storage_round_trip.2.2.2.2.2 30⟩

/-- C6 counterexample: the flat CSV backend does not return scalar fields
intact — saving `[{age: 30}]` and loading yields the string "30", and the
string "30" is not the integer 30. -/
theorem C6_counterexample :
    csvLoad (csvSave {} none [[("age", Value.int 30)]]).2 none
      = [[("age", Value.str "30")]]
    ∧ Value.str "30" ≠ Value.int 30 := by decide
